import Mathlib

/-!
A shallow embedding of `main.go` of db-metrics-exporter.

The program reads named SQL queries from `config.txt`, checks every query text
against the allow-pattern `(?i)^\s*SELECT\b`, runs the accepted queries on a
PostgreSQL connection and logs the collected rows.

Modelling conventions.

* A Go `string` is modelled by the sequence of runes that `regexp`,
  `strings.TrimSpace` and `range` decode from it, i.e. by the UTF-8 text it holds
  (`GoString = List Char`).  A `[]byte` value is modelled by the same carrier, so
  that the conversion `string(b)` keeps the contents.
* The library calls of `main.go` (`regexp`, `strings`, `database/sql`, `logrus`)
  are modelled by their documented behaviour.  The outside world (flags, the
  file system and the database) is an explicit environment `Env`.
* A run of `main` is the list of its observable events together with the exit
  status.  Informational and warning log records are not events; the fatal record
  and the final `output` record are.
-/

namespace DbMetricsExporter

/-! ## Strings -/

/-- Go `string`, as the sequence of its runes. -/
abbrev GoString := List Char

/-- The rune set of `unicode.IsSpace`: the Unicode White_Space property. -/
def unicodeIsSpace (c : Char) : Bool :=
  let n := c.toNat
  (0x09 ≤ n && n ≤ 0x0D) || n == 0x20 || n == 0x85 || n == 0xA0 || n == 0x1680 ||
  (0x2000 ≤ n && n ≤ 0x200A) || n == 0x2028 || n == 0x2029 || n == 0x202F ||
  n == 0x205F || n == 0x3000

/-- Go `strings.TrimSpace`: removes all leading and trailing white space, as
defined by Unicode. -/
def TrimSpace (s : GoString) : GoString :=
  ((s.dropWhile unicodeIsSpace).reverse.dropWhile unicodeIsSpace).reverse

/-- Go `strings.Cut` for a one-rune separator: the text before and after the
first occurrence of `sep`, or `none` when `sep` does not occur. -/
def cut (sep : Char) : GoString → Option (GoString × GoString)
  | [] => none
  | c :: cs =>
    if c = sep then some ([], cs)
    else match cut sep cs with
      | none => none
      | some (a, b) => some (c :: a, b)

/-- Go `strings.SplitN(s, sep, n)` for a one-rune separator and `n ≥ 0`: at most
`n` substrings, the last one being the unsplit remainder. -/
def SplitN (s : GoString) (sep : Char) : Nat → List GoString
  | 0 => []
  | 1 => [s]
  | n + 2 =>
    match cut sep s with
    | none => [s]
    | some (a, b) => a :: SplitN b sep (n + 1)

/-- Go `strings.Split(s, sep)` for a one-rune separator: all substrings between
the occurrences of `sep`.  `cur` holds the current substring, reversed. -/
def splitAux (sep : Char) : GoString → GoString → List GoString
  | [], cur => [cur.reverse]
  | c :: cs, cur =>
    if c = sep then cur.reverse :: splitAux sep cs []
    else splitAux sep cs (c :: cur)

/-- Go `strings.Split(s, sep)` for a one-rune separator. -/
def Split (s : GoString) (sep : Char) : List GoString :=
  splitAux sep s []

/-! ## The regular expression `(?i)^\s*SELECT\b` -/

/-- The pieces of Go regular expressions that the program uses. -/
inductive Re where
  /-- The assertion `^` without the `m` flag: at the beginning of the text. -/
  | beginText
  /-- The repetition `x*` of a character class `x`. -/
  | star (cls : Char → Bool)
  /-- A literal rune under the `i` flag: matched up to simple case folding. -/
  | foldLit (c : Char)
  /-- The assertion `\b`: at an ASCII word boundary. -/
  | wordBoundary

/-- Perl class `\s` of Go regular expressions: `[\t\n\f\r ]`. -/
def isPerlSpace (c : Char) : Bool :=
  c == '\t' || c == '\n' || c == '\x0c' || c == '\r' || c == ' '

/-- Perl class `\w` of Go regular expressions: `[0-9A-Za-z_]`. -/
def isWordChar (c : Char) : Bool :=
  ('0' ≤ c && c ≤ '9') || ('A' ≤ c && c ≤ 'Z') || ('a' ≤ c && c ≤ 'z') || c == '_'

/-- Word character test on an optional rune; the edge of the text is not a
word character. -/
def isWordAt : Option Char → Bool
  | none => false
  | some c => isWordChar c

/-- The orbit of an ASCII rune under `unicode.SimpleFold`.  An ASCII letter folds
to its other case; `K` and `S` have a third member, the Kelvin sign U+212A and
the long s U+017F. -/
def simpleFoldOrbit (c : Char) : List Char :=
  if c = 'K' ∨ c = 'k' then ['K', 'k', Char.ofNat 0x212A]
  else if c = 'S' ∨ c = 's' then ['S', 's', Char.ofNat 0x017F]
  else if 'A' ≤ c ∧ c ≤ 'Z' then [c, Char.ofNat (c.toNat + 32)]
  else if 'a' ≤ c ∧ c ≤ 'z' then [Char.ofNat (c.toNat - 32), c]
  else [c]

/-- A literal `lit` of a case-insensitive pattern matches the rune `c`. -/
def foldMatches (lit c : Char) : Bool :=
  (simpleFoldOrbit lit).contains c

/-- Matching of `x*` followed by the continuation `k`: consume any number of
runes of the class, then continue.  `prev` is the rune before the position. -/
def starLoop (cls : Char → Bool) (k : Option Char → GoString → Bool) :
    Option Char → GoString → Bool
  | prev, [] => k prev []
  | prev, c :: cs => (cls c && starLoop cls k (some c) cs) || k prev (c :: cs)

/-- Does the concatenation of the pieces `re` match an initial segment of the text `s`,
where `prev` is the rune before `s` (`none` at the beginning of the text)? -/
def matchHere : List Re → Option Char → GoString → Bool
  | [], _, _ => true
  | Re.beginText :: rs, prev, s => prev.isNone && matchHere rs prev s
  | Re.star cls :: rs, prev, s => starLoop cls (fun p t => matchHere rs p t) prev s
  | Re.foldLit l :: rs, _, s =>
    match s with
    | [] => false
    | c :: cs => foldMatches l c && matchHere rs (some c) cs
  | Re.wordBoundary :: rs, prev, s =>
    (isWordAt prev != isWordAt s.head?) && matchHere rs prev s

/-- Does `re` match starting at this or at a later position of the text? -/
def matchFrom (re : List Re) : Option Char → GoString → Bool
  | prev, [] => matchHere re prev []
  | prev, c :: cs => matchHere re prev (c :: cs) || matchFrom re (some c) cs

/-- Go `(*Regexp).MatchString`: the text contains a match of the expression. -/
def MatchString (re : List Re) (s : GoString) : Bool :=
  matchFrom re none s

/-- The compiled pattern `(?i)^\s*SELECT\b`. -/
def selectRe : List Re :=
  [Re.beginText, Re.star isPerlSpace,
   Re.foldLit 'S', Re.foldLit 'E', Re.foldLit 'L', Re.foldLit 'E', Re.foldLit 'C',
   Re.foldLit 'T', Re.wordBoundary]

/-! ## `sanitizeQuery` and `validateConfig` -/

/-- Source `sanitizeQuery`: the query itself and `true` when the pattern matches, the
empty string and `false` otherwise. -/
def sanitizeQuery (query : GoString) : GoString × Bool :=
  if MatchString selectRe query then (query, true) else ([], false)

/-- Source `validateConfig`: every line that is not blank after trimming has a name,
a space and a query that `sanitizeQuery` accepts. -/
def validateConfig : List GoString → Bool
  | [] => true
  | line :: rest =>
    let line := TrimSpace line
    if line = [] then validateConfig rest
    else
      match SplitN line ' ' 2 with
      | _ :: q :: _ =>
        if (sanitizeQuery q).2 then validateConfig rest else false
      | _ => false

/-! ## Values, rows and maps -/

/-- A column value as `rows.Scan` stores it in an `interface{}`. -/
inductive Value where
  | null
  | int64 (i : Int)
  | float64 (bits : Nat)
  | bool (b : Bool)
  | bytes (b : GoString)
  | str (s : GoString)
  | time (unixNano : Int)
  deriving DecidableEq

/-- Go `map[string]V`, as an association list. -/
abbrev GoMap (V : Type) := List (GoString × V)

/-- Go `m[k]` with the `ok` result: the value stored under `k`, if any. -/
def mapLookup {V : Type} : GoMap V → GoString → Option V
  | [], _ => none
  | (k', v) :: rest, k => if k' = k then some v else mapLookup rest k

/-- Go `m[k] = v`: the entry of `k` is replaced, or added when there is none. -/
def mapAssign {V : Type} : GoMap V → GoString → V → GoMap V
  | [], k, v => [(k, v)]
  | (k', v') :: rest, k, v =>
    if k' = k then (k, v) :: rest else (k', v') :: mapAssign rest k v

/-- The keys of a map. -/
def mapKeys {V : Type} (m : GoMap V) : List GoString :=
  m.map Prod.fst

/-- Source `rowMap`, of type `map[string]interface{}`: column name to value. -/
abbrev Row := GoMap Value

/-- Source `resultMap`: query name to the rows of that query. -/
abbrev ResultMap := GoMap (List Row)

/-- Lines 129-132 of `main.go`: a `[]byte` value becomes a `string`; every other value is
kept. -/
def convertValue : Value → Value
  | Value.bytes b => Value.str b
  | v => v

/-- Lines 128-134 of `main.go`: `for i, col := range columns`, storing the converted
`values[i]` under `col`.  A slot of `values` that `Scan` did not fill holds `nil`. -/
def fillRow (values : List Value) : List (Nat × GoString) → Row → Row
  | [], rowMap => rowMap
  | (i, col) :: rest, rowMap =>
    fillRow values rest (mapAssign rowMap col (convertValue (values.getD i Value.null)))

/-- Lines 127-134 of `main.go`: the row map of one scanned row. -/
def buildRow (columns : List GoString) (values : List Value) : Row :=
  fillRow values columns.enum []

/-! ## The environment of a run -/

/-- The behaviour of a `*sql.Rows` returned by a successful `db.Query`. -/
structure Rows where
  /-- Result of `rows.Columns()`; `none` is an error. -/
  columns : Option (List GoString)
  /-- For each `rows.Next()` that returns true, what `rows.Scan` stores; `none` is
  a scan error. -/
  scans : List (Option (List Value))
  /-- After the iteration `rows.Err()` is not nil. -/
  iterErr : Bool
  /-- The call `rows.Close()` returns an error. -/
  closeErr : Bool

/-- Everything outside the program that a run depends on. -/
structure Env where
  /-- Flag `-ip`. -/
  ip : GoString
  /-- Flag `-port`. -/
  port : GoString
  /-- Flag `-user`. -/
  user : GoString
  /-- Flag `-password`. -/
  password : GoString
  /-- Flag `-db`. -/
  dbname : GoString
  /-- Flag `-ssl`. -/
  ssl : GoString
  /-- The call `sql.Open` returns an error. -/
  openErr : Bool
  /-- The call `db.Ping` returns an error. -/
  pingErr : Bool
  /-- Contents of `config.txt`; `none` when `ioutil.ReadFile` fails. -/
  configFile : Option GoString
  /-- Answer of `db.Query` to the query text of line `i` (counted from 0); `none`
  is an execution error. -/
  db : Nat → GoString → Option Rows

/-- The observable steps of a run. -/
inductive Event where
  /-- The call `sql.Open("postgres", connStr)`. -/
  | sqlOpen (connStr : GoString)
  /-- The call `db.Ping()`. -/
  | ping
  /-- The call `ioutil.ReadFile("config.txt")`. -/
  | readFile
  /-- The call `db.Query(text)`. -/
  | query (text : GoString)
  /-- The final log record `output`, carrying the result map. -/
  | report (resultMap : ResultMap)
  /-- A `log.Fatal` record, after which the process exits. -/
  | fatal
  /-- The call `db.Close()`. -/
  | dbClose
  deriving DecidableEq

/-- A finished run: its events in order and the exit status of the process. -/
structure Outcome where
  trace : List Event
  exitCode : Nat
  deriving DecidableEq

/-- Package `logrus`, `log.Fatal`: the record is written and `os.Exit(1)` is called.
`os.Exit` ends the process at once: the pending deferred calls are not run. -/
def logFatal (trace : List Event) (_deferred : List Event) : Outcome :=
  { trace := trace ++ [Event.fatal], exitCode := 1 }

/-- Return from `main`: the deferred calls run and the process exits with status 0. -/
def returnFromMain (trace : List Event) (deferred : List Event) : Outcome :=
  { trace := trace ++ deferred, exitCode := 0 }

/-! ## `main` -/

/-- Lines 57-62 of `main.go`. -/
def validSSLModes : GoMap Bool :=
  [("disable".toList, true), ("require".toList, true), ("verify-ca".toList, true),
   ("verify-full".toList, true)]

/-- Lines 66-67 of `main.go`: the connection string. -/
def connStr (env : Env) : GoString :=
  "host=".toList ++ env.ip ++ " port=".toList ++ env.port ++ " user=".toList ++ env.user ++
  " password=".toList ++ env.password ++ " dbname=".toList ++ env.dbname ++
  " sslmode=".toList ++ env.ssl

/-- Lines 117-136 of `main.go`: the loop over `rows.Next()`.  The result is `none` when a
`rows.Scan` fails, which is fatal. -/
def scanRows (columns : List GoString) : List (Option (List Value)) → List Row → Option (List Row)
  | [], results => some results
  | none :: _, _ => none
  | some values :: rest, results => scanRows columns rest (results ++ [buildRow columns values])

/-- Adds an event in front of the events of the rest of the loop. -/
def andThen (e : Event) (r : List Event × Option ResultMap) : List Event × Option ResultMap :=
  (e :: r.1, r.2)

/-- Lines 89-146 of `main.go`: the loop over the lines.  The result is the list of
events of the loop and the final result map, or `none` when the loop ends in a
`log.Fatal`. -/
def runLoop (db : Nat → GoString → Option Rows) :
    List (Nat × GoString) → ResultMap → List Event × Option ResultMap
  | [], resultMap => ([], some resultMap)
  | (i, line) :: rest, resultMap =>
    if TrimSpace line = [] then runLoop db rest resultMap
    else
      match SplitN (TrimSpace line) ' ' 2 with
      | name :: text :: _ =>
        if (sanitizeQuery text).2 then
          match db i (sanitizeQuery text).1 with
          | none => andThen (Event.query (sanitizeQuery text).1) (runLoop db rest resultMap)
          | some rows =>
            match rows.columns with
            | none => ([Event.query (sanitizeQuery text).1], none)
            | some columns =>
              match scanRows columns rows.scans [] with
              | none => ([Event.query (sanitizeQuery text).1], none)
              | some results =>
                if rows.iterErr then ([Event.query (sanitizeQuery text).1], none)
                else if rows.closeErr then ([Event.query (sanitizeQuery text).1], none)
                else
                  andThen (Event.query (sanitizeQuery text).1)
                    (runLoop db rest (mapAssign resultMap name results))
        else runLoop db rest resultMap
      | _ => runLoop db rest resultMap

/-- Source `main`, from the SSL mode check on. -/
def main (env : Env) : Outcome :=
  if (mapLookup validSSLModes env.ssl).getD false = false then logFatal [] []
  else if env.openErr then logFatal [Event.sqlOpen (connStr env)] []
  else
    -- `defer db.Close()`
    let deferred := [Event.dbClose]
    if env.pingErr then logFatal [Event.sqlOpen (connStr env), Event.ping] deferred
    else
      match env.configFile with
      | none => logFatal [Event.sqlOpen (connStr env), Event.ping, Event.readFile] deferred
      | some data =>
        let lines := Split data '\n'
        if validateConfig lines = false then
          logFatal [Event.sqlOpen (connStr env), Event.ping, Event.readFile] deferred
        else
          match runLoop env.db lines.enum [] with
          | (events, none) =>
            logFatal ([Event.sqlOpen (connStr env), Event.ping, Event.readFile] ++ events)
              deferred
          | (events, some resultMap) =>
            -- the `err` tested on line 148 is the one of `ReadFile`, which is nil here
            returnFromMain
              ([Event.sqlOpen (connStr env), Event.ping, Event.readFile] ++ events ++
                [Event.report resultMap])
              deferred

/-! ## Vocabulary of the specification -/

/-- The text after its leading white space, the class `\s` of the pattern. -/
def stripLeadingSpace (s : GoString) : GoString :=
  s.dropWhile isPerlSpace

/-- The text starts with the letters of `select`, compared case-insensitively (up to
simple case folding). -/
def startsWithSelect : GoString → Bool
  | a :: b :: c :: d :: e :: f :: _ =>
    foldMatches 'S' a && foldMatches 'E' b && foldMatches 'L' c &&
    foldMatches 'E' d && foldMatches 'C' e && foldMatches 'T' f
  | _ => false

/-- The six letters S-E-L-E-C-T, each in upper or lower case. -/
def isSelectAnyCase : GoString → Bool
  | [a, b, c, d, e, f] =>
    (a == 'S' || a == 's') && (b == 'E' || b == 'e') && (c == 'L' || c == 'l') &&
    (d == 'E' || d == 'e') && (e == 'C' || e == 'c') && (f == 'T' || f == 't')
  | _ => false

/-- An ASCII letter, digit or underscore. -/
def isAsciiWord (c : Char) : Bool :=
  c.isAlpha || c.isDigit || c == '_'

/-- The trimmed line is `name`, a space and `text`, and this space is its first one. -/
def IsEntry (line name text : GoString) : Prop :=
  TrimSpace line = name ++ ' ' :: text ∧ ' ' ∉ name

/-- The name and the query text of a line that passes the checks of the loop: not blank,
with a space, and with a query text that `sanitizeQuery` accepts. -/
def lineEntry (line : GoString) : Option (GoString × GoString) :=
  match cut ' ' (TrimSpace line) with
  | none => none
  | some (name, text) => if (sanitizeQuery text).2 then some (name, text) else none

/-- The rows of a result set, as row maps: what a query returns when no error occurs. -/
def resultSet (rows : Rows) : List Row :=
  (rows.scans.filterMap id).map (buildRow (rows.columns.getD []))

/-- Line `i` of the file, counted from 0, names the query `name`, and the database
executes its text successfully and returns `rows`. -/
def Succeeds (db : Nat → GoString → Option Rows) (lines : List GoString) (i : Nat)
    (name : GoString) (rows : Rows) : Prop :=
  ∃ line text, lines[i]? = some line ∧ IsEntry line name text ∧ db i text = some rows

/-- The database never fails after a successful `db.Query`: no error from
`rows.Columns`, `rows.Scan`, `rows.Err` or `rows.Close`. -/
def NoRowErrors (db : Nat → GoString → Option Rows) : Prop :=
  ∀ i q rows, db i q = some rows →
    rows.columns ≠ none ∧ (∀ s ∈ rows.scans, s ≠ none) ∧
    rows.iterErr = false ∧ rows.closeErr = false

/-- Position `p` of `lines`, which is line `k + p` of the file, passes the checks of the
loop with the name `name`, and its query succeeds with `rows`. -/
def hitAt (db : Nat → GoString → Option Rows) (k : Nat) (lines : List GoString) (p : Nat)
    (name : GoString) (rows : Rows) : Prop :=
  ∃ line text, lines[p]? = some line ∧ lineEntry line = some (name, text) ∧
    db (k + p) text = some rows

/-- The last position at which `H` holds carries the result set `rs`. -/
def LastHit (H : Nat → Rows → Prop) (rs : List Row) : Prop :=
  ∃ p rows, H p rows ∧ rs = resultSet rows ∧ ∀ p' rows', p < p' → ¬ H p' rows'

/-- The predicate `H` holds at no position. -/
def NoHit (H : Nat → Rows → Prop) : Prop :=
  ∀ p rows, ¬ H p rows

/-- The result map after the loop body has run on line `k` with a database without row
errors. -/
def headStep (db : Nat → GoString → Option Rows) (k : Nat) (line : GoString)
    (m : ResultMap) : ResultMap :=
  match lineEntry line with
  | none => m
  | some (name, text) =>
    match db k text with
    | none => m
    | some rows => mapAssign m name (resultSet rows)

/-- The four SSL modes that the specification lists. -/
def sslModes : List GoString :=
  ["disable".toList, "require".toList, "verify-ca".toList, "verify-full".toList]

/-- A run with the default flags of lines 50-55 of `main.go`, a database that can be opened and
pinged, no readable `config.txt` and a database on which every query fails. -/
def defaultEnv : Env :=
  { ip := "127.0.0.1".toList, port := "5432".toList, user := "USERNAME".toList,
    password := "PASSWORD".toList, dbname := "DBNAME".toList, ssl := "disable".toList,
    openErr := false, pingErr := false, configFile := none, db := fun _ _ => none }

/-- The default run with the flag `-ssl=foobar`. -/
def foobarEnv : Env :=
  { defaultEnv with ssl := "foobar".toList }

/-- The default run with a database that cannot be pinged. -/
def pingFailEnv : Env :=
  { defaultEnv with pingErr := true }

/-- The default run with the two-line config `q1 SELECT 1`, `bad DELETE FROM t`. -/
def badLineEnv : Env :=
  { defaultEnv with configFile := some "q1 SELECT 1\nbad DELETE FROM t".toList }

/-- The result of a query that returns the single row `1` in the column `?column?`. -/
def oneRow : Rows :=
  { columns := some ["?column?".toList], scans := [some [Value.int64 1]],
    iterErr := false, closeErr := false }

/-- The default run with the config `q1 SELECT 1`, `q2 SELECT * FROM nonexistent_table`
of the specification: the query of the second line fails at the database. -/
def q2FailEnv : Env :=
  { defaultEnv with
    configFile := some "q1 SELECT 1\nq2 SELECT * FROM nonexistent_table".toList,
    db := fun i _ => if i = 1 then none else some oneRow }

/-- The default run with a one-line config whose query returns one row with a `[]byte`
value, a null and an integer. -/
def bytesEnv : Env :=
  { defaultEnv with
    configFile := some "q1 SELECT name, note, n FROM t".toList,
    db := fun _ _ => some
      { columns := some ["name".toList, "note".toList, "n".toList],
        scans := [some [Value.bytes "abc".toList, Value.null, Value.int64 7]],
        iterErr := false, closeErr := false } }

/-! ## Facts about the pattern -/

theorem foldMatches_S (c : Char) :
    foldMatches 'S' c = true ↔ (c = 'S' ∨ c = 's' ∨ c = Char.ofNat 0x17F) := by
  simp [foldMatches, simpleFoldOrbit]

theorem foldMatches_E (c : Char) : foldMatches 'E' c = true ↔ (c = 'E' ∨ c = 'e') := by
  simp [foldMatches, simpleFoldOrbit]

theorem foldMatches_L (c : Char) : foldMatches 'L' c = true ↔ (c = 'L' ∨ c = 'l') := by
  simp [foldMatches, simpleFoldOrbit]

theorem foldMatches_C (c : Char) : foldMatches 'C' c = true ↔ (c = 'C' ∨ c = 'c') := by
  simp [foldMatches, simpleFoldOrbit]

theorem foldMatches_T (c : Char) : foldMatches 'T' c = true ↔ (c = 'T' ∨ c = 't') := by
  simp [foldMatches, simpleFoldOrbit]

theorem isPerlSpace_iff (c : Char) :
    isPerlSpace c = true ↔ (c = '\t' ∨ c = '\n' ∨ c = '\x0c' ∨ c = '\r' ∨ c = ' ') := by
  simp [isPerlSpace, or_assoc]

theorem foldMatches_S_not_space (c : Char) (h : isPerlSpace c = true) :
    foldMatches 'S' c = false := by
  rw [isPerlSpace_iff] at h
  rcases h with h | h | h | h | h <;> subst h <;> decide

theorem isWordChar_of_T (c : Char) (h : foldMatches 'T' c = true) : isWordChar c = true := by
  rw [foldMatches_T] at h
  rcases h with h | h <;> subst h <;> decide

theorem matchHere_selectRe_some (s : GoString) (c : Char) :
    matchHere selectRe (some c) s = false := by
  simp [matchHere, selectRe]

theorem matchFrom_selectRe_some (s : GoString) (c : Char) :
    matchFrom selectRe (some c) s = false := by
  induction s generalizing c with
  | nil => simp [matchFrom, matchHere_selectRe_some]
  | cons d ds ih => simp [matchFrom, matchHere_selectRe_some, ih]

theorem matchString_eq_matchHere (s : GoString) :
    MatchString selectRe s = matchHere selectRe none s := by
  cases s with
  | nil => simp [MatchString, matchFrom]
  | cons d ds => simp [MatchString, matchFrom, matchFrom_selectRe_some]

theorem starLoop_eq_dropWhile (cls : Char → Bool) (k : Option Char → GoString → Bool)
    (k0 : GoString → Bool) (hk : ∀ p t, k p t = k0 t)
    (hcls : ∀ c cs, cls c = true → k0 (c :: cs) = false) (prev : Option Char) (s : GoString) :
    starLoop cls k prev s = k0 (s.dropWhile cls) := by
  induction s generalizing prev with
  | nil => simp [starLoop, hk]
  | cons c cs ih =>
    by_cases hc : cls c = true
    · simp [starLoop, hk, hc, ih, hcls c cs hc]
    · simp [starLoop, hk, hc]

theorem keyword_tail (p : Option Char) (t : GoString) :
    matchHere [Re.foldLit 'S', Re.foldLit 'E', Re.foldLit 'L', Re.foldLit 'E',
      Re.foldLit 'C', Re.foldLit 'T', Re.wordBoundary] p t
      = (startsWithSelect t && !isWordAt (t.drop 6).head?) := by
  match t with
  | [] | [_] | [_, _] | [_, _, _] | [_, _, _, _] | [_, _, _, _, _] =>
    simp [matchHere, startsWithSelect]
  | a :: b :: c :: d :: e :: f :: rest =>
    simp only [matchHere, startsWithSelect, List.drop_succ_cons, List.drop_zero, Bool.and_true]
    by_cases hf : foldMatches 'T' f = true
    · simp [hf, isWordAt, isWordChar_of_T f hf, Bool.and_assoc]
    · simp [hf]

theorem matchString_selectRe (s : GoString) :
    MatchString selectRe s
      = (startsWithSelect (stripLeadingSpace s) &&
          !isWordAt ((stripLeadingSpace s).drop 6).head?) := by
  rw [matchString_eq_matchHere]
  have h : matchHere selectRe none s
      = starLoop isPerlSpace (fun p t => matchHere [Re.foldLit 'S', Re.foldLit 'E',
          Re.foldLit 'L', Re.foldLit 'E', Re.foldLit 'C', Re.foldLit 'T',
          Re.wordBoundary] p t) none s := by
    simp [selectRe, matchHere]
  rw [h, starLoop_eq_dropWhile isPerlSpace _
    (fun t => startsWithSelect t && !isWordAt (t.drop 6).head?) keyword_tail]
  · rfl
  · intro c cs hc
    have := foldMatches_S_not_space c hc
    match cs with
    | [] | [_] | [_, _] | [_, _, _] | [_, _, _, _] => simp [startsWithSelect]
    | b :: c2 :: d :: e :: f :: rest => simp [startsWithSelect, this]

theorem isWordChar_eq (c : Char) : isWordChar c = isAsciiWord c := by
  have h1 : ('0' ≤ c) = (48 ≤ c.val) := rfl
  have h2 : (c ≤ '9') = (c.val ≤ 57) := rfl
  have h3 : ('A' ≤ c) = (65 ≤ c.val) := rfl
  have h4 : (c ≤ 'Z') = (c.val ≤ 90) := rfl
  have h5 : ('a' ≤ c) = (97 ≤ c.val) := rfl
  have h6 : (c ≤ 'z') = (c.val ≤ 122) := rfl
  simp only [isWordChar, isAsciiWord, Char.isAlpha, Char.isUpper, Char.isLower, Char.isDigit,
    h1, h2, h3, h4, h5, h6, ge_iff_le]
  generalize (decide (48 ≤ c.val) && decide (c.val ≤ 57)) = x
  generalize (decide (65 ≤ c.val) && decide (c.val ≤ 90)) = y
  generalize (decide (97 ≤ c.val) && decide (c.val ≤ 122)) = z
  generalize (c == '_') = w
  cases x <;> cases y <;> cases z <;> cases w <;> rfl

theorem dropWhile_append_stop (p : Char → Bool) (ws t : GoString)
    (hws : ∀ c ∈ ws, p c = true) (ht : ∀ c ∈ t.head?, p c = false) :
    (ws ++ t).dropWhile p = t := by
  induction ws with
  | nil =>
    cases t with
    | nil => rfl
    | cons c cs => simp [List.dropWhile, ht c (by simp)]
  | cons w ws ih =>
    have hw := hws w (by simp)
    simp only [List.cons_append, List.dropWhile_cons, hw, if_true]
    exact ih (fun c hc => hws c (by simp [hc]))

theorem sanitizeQuery_snd (s : GoString) :
    (sanitizeQuery s).2 = (startsWithSelect (stripLeadingSpace s) &&
          !isWordAt ((stripLeadingSpace s).drop 6).head?) := by
  rw [← matchString_selectRe]
  unfold sanitizeQuery
  split <;> simp_all

theorem sanitizeQuery_fst_of_accept (s : GoString) (h : (sanitizeQuery s).2 = true) :
    (sanitizeQuery s).1 = s := by
  unfold sanitizeQuery at h ⊢
  split <;> simp_all

theorem sanitizeQuery_fst_of_reject (s : GoString) (h : (sanitizeQuery s).2 = false) :
    (sanitizeQuery s).1 = [] := by
  unfold sanitizeQuery at h ⊢
  split <;> simp_all

/-- C1 as written fails: `SELECTED` starts with the letters of `select`, yet
`sanitizeQuery` rejects it. -/
theorem sanitizeQuery_prefix_only_counterexample :
    ¬ ((sanitizeQuery "SELECTED".toList).2 = true ↔
        startsWithSelect (stripLeadingSpace "SELECTED".toList) = true) := by
  decide

/-- C1, amended: `sanitizeQuery` accepts exactly the texts that, after their leading
white space, start with the letters of `select` compared case-insensitively, and in which
these six letters are followed by the end of the text or by a rune that is not a word
character.  It rejects the empty string and every text whose first runes after the white
space spell something else. -/
theorem sanitizeQuery_accepts_iff (s : GoString) :
    ((sanitizeQuery s).2 = true ↔
      (startsWithSelect (stripLeadingSpace s) = true ∧
        ∀ c, ((stripLeadingSpace s).drop 6).head? = some c → isWordChar c = false)) ∧
    (sanitizeQuery []).2 = false ∧
    (startsWithSelect (stripLeadingSpace s) = false → (sanitizeQuery s).2 = false) := by
  refine ⟨?_, by decide, ?_⟩
  · rw [sanitizeQuery_snd]
    cases h : ((stripLeadingSpace s).drop 6).head? <;> simp [isWordAt]
  · intro h
    rw [sanitizeQuery_snd, h]
    rfl

/-- The texts `select count(*) from t` and `SELECTED`: the first is accepted, the second
starts with the same letters and is rejected, because a word character follows them. -/
theorem sanitizeQuery_accepts_iff_witness :
    (sanitizeQuery "select count(*) from t".toList).2 = true ∧
    ¬ (sanitizeQuery "SELECTED".toList).2 = true :=
  ⟨(sanitizeQuery_accepts_iff "select count(*) from t".toList).1.2 (by decide),
    fun h => absurd
      (((sanitizeQuery_accepts_iff "SELECTED".toList).1.1 h).2 'E' (by decide)) (by decide)⟩

theorem ascii_ne_long_s (c : Char) (h : c.toNat < 128) : c ≠ Char.ofNat 0x17F := by
  intro hc
  subst hc
  revert h
  decide

theorem startsWithSelect_ascii (a b c d e f : Char) (rest : GoString) (ha : a.toNat < 128) :
    startsWithSelect (a :: b :: c :: d :: e :: f :: rest) = isSelectAnyCase [a, b, c, d, e, f] := by
  have hS : foldMatches 'S' a = (a == 'S' || a == 's') := by
    rw [Bool.eq_iff_iff, foldMatches_S]
    have := ascii_ne_long_s a ha
    simp [this]
  have hE : ∀ x, foldMatches 'E' x = (x == 'E' || x == 'e') := fun x => by
    rw [Bool.eq_iff_iff, foldMatches_E]; simp
  have hL : foldMatches 'L' c = (c == 'L' || c == 'l') := by
    rw [Bool.eq_iff_iff, foldMatches_L]; simp
  have hC : foldMatches 'C' e = (e == 'C' || e == 'c') := by
    rw [Bool.eq_iff_iff, foldMatches_C]; simp
  have hT : foldMatches 'T' f = (f == 'T' || f == 't') := by
    rw [Bool.eq_iff_iff, foldMatches_T]; simp
  simp only [startsWithSelect, isSelectAnyCase, hS, hE, hL, hC, hT]

theorem isSelectAnyCase_shape (kw : GoString) (h : isSelectAnyCase kw = true) :
    ∃ a b c d e f, kw = [a, b, c, d, e, f] ∧ isPerlSpace a = false ∧ a.toNat < 128 := by
  match kw, h with
  | [a, b, c, d, e, f], h =>
    refine ⟨a, b, c, d, e, f, rfl, ?_⟩
    simp only [isSelectAnyCase, Bool.and_eq_true, Bool.or_eq_true, beq_iff_eq] at h
    rcases h.1.1.1.1.1 with ha | ha <;> subst ha <;> decide

/-- C10: on ASCII text `sanitizeQuery` accepts exactly white space (space, tab, newline,
form feed, carriage return), then the letters S-E-L-E-C-T in any case, then the end of the
text or a character that is no ASCII letter, digit or underscore.  It returns the text
unchanged when it accepts and the empty string when it rejects. -/
theorem sanitizeQuery_ascii (s : GoString) (hascii : ∀ c ∈ s, c.toNat < 128) :
    ((sanitizeQuery s).2 = true ↔
      ∃ ws kw rest, s = ws ++ kw ++ rest ∧
        (∀ c ∈ ws, c = ' ' ∨ c = '\t' ∨ c = '\n' ∨ c = '\x0c' ∨ c = '\r') ∧
        isSelectAnyCase kw = true ∧
        (rest = [] ∨ ∃ c rest', rest = c :: rest' ∧ isAsciiWord c = false)) ∧
    ((sanitizeQuery s).2 = true → (sanitizeQuery s).1 = s) ∧
    ((sanitizeQuery s).2 = false → (sanitizeQuery s).1 = []) := by
  refine ⟨?_, sanitizeQuery_fst_of_accept s, sanitizeQuery_fst_of_reject s⟩
  rw [sanitizeQuery_snd]
  constructor
  · intro h
    rw [Bool.and_eq_true] at h
    obtain ⟨h1, h2⟩ := h
    have hsplit : s = s.takeWhile isPerlSpace ++ stripLeadingSpace s :=
      (List.takeWhile_append_dropWhile isPerlSpace s).symm
    have hws : ∀ c ∈ s.takeWhile isPerlSpace,
        c = ' ' ∨ c = '\t' ∨ c = '\n' ∨ c = '\x0c' ∨ c = '\r' := by
      intro c hc
      have := (isPerlSpace_iff c).1 (List.mem_takeWhile_imp hc)
      tauto
    generalize stripLeadingSpace s = t at h1 h2 hsplit
    match t, h1, h2, hsplit with
    | a :: b :: c :: d :: e :: f :: rest, h1, h2, hsplit =>
      have ha : a.toNat < 128 := hascii a (by rw [hsplit]; simp)
      rw [startsWithSelect_ascii a b c d e f rest ha] at h1
      refine ⟨s.takeWhile isPerlSpace, [a, b, c, d, e, f], rest, ?_, hws, h1, ?_⟩
      · simpa using hsplit
      · cases rest with
        | nil => exact Or.inl rfl
        | cons r rs =>
          refine Or.inr ⟨r, rs, rfl, ?_⟩
          rw [← isWordChar_eq]
          simpa [isWordAt] using h2
  · rintro ⟨ws, kw, rest, hs, hws, hkw, hrest⟩
    obtain ⟨a, b, c, d, e, f, rfl, hsp, ha⟩ := isSelectAnyCase_shape kw hkw
    have hstrip : stripLeadingSpace s = a :: b :: c :: d :: e :: f :: rest := by
      rw [hs, List.append_assoc]
      apply dropWhile_append_stop
      · intro x hx
        rw [isPerlSpace_iff]
        have := hws x hx
        tauto
      · intro x hx
        simp at hx
        subst hx
        exact hsp
    rw [hstrip, startsWithSelect_ascii a b c d e f rest ha, hkw]
    rcases hrest with rfl | ⟨r, rs, rfl, hr⟩
    · simp [isWordAt]
    · simp [isWordAt, isWordChar_eq, hr]

/-- The examples of C10: `  Select 1; DROP TABLE t` is ASCII, accepted and returned
unchanged, and so are `SELECT` and `select*`; `SELECTED`, `select_1` and `SELECT1` are
rejected with the empty string. -/
theorem sanitizeQuery_ascii_witness :
    (∀ c ∈ "  Select 1; DROP TABLE t".toList, c.toNat < 128) ∧
    (sanitizeQuery "  Select 1; DROP TABLE t".toList).2 = true ∧
    (sanitizeQuery "  Select 1; DROP TABLE t".toList).1 = "  Select 1; DROP TABLE t".toList ∧
    (sanitizeQuery "SELECT".toList).2 = true ∧
    (sanitizeQuery "select*".toList).2 = true ∧
    sanitizeQuery "SELECTED".toList = ([], false) ∧
    sanitizeQuery "select_1".toList = ([], false) ∧
    sanitizeQuery "SELECT1".toList = ([], false) :=
  have h : ∀ c ∈ "  Select 1; DROP TABLE t".toList, c.toNat < 128 := by decide
  ⟨h, by decide,
    (sanitizeQuery_ascii "  Select 1; DROP TABLE t".toList h).2.1 (by decide),
    by decide, by decide, by decide, by decide, by decide⟩

/-! ## Facts about lines -/

theorem cut_eq_none (sep : Char) (s : GoString) : cut sep s = none ↔ sep ∉ s := by
  induction s with
  | nil => simp [cut]
  | cons c cs ih =>
    by_cases hc : c = sep
    · simp [cut, hc]
    · cases h : cut sep cs with
      | none => simp [cut, hc, h, ← ih, Ne.symm hc]
      | some p =>
        have : ¬ sep ∉ cs := fun hn => by rw [← ih, h] at hn; cases hn
        simp only [not_not] at this
        simp [cut, hc, h, this]

theorem cut_eq_some (sep : Char) (s a b : GoString) :
    cut sep s = some (a, b) ↔ s = a ++ sep :: b ∧ sep ∉ a := by
  induction s generalizing a b with
  | nil => simp [cut]
  | cons c cs ih =>
    by_cases hc : c = sep
    · subst hc
      simp only [cut, if_true, Option.some.injEq, Prod.mk.injEq]
      constructor
      · rintro ⟨rfl, rfl⟩
        simp
      · rintro ⟨h, hn⟩
        cases a with
        | nil => simpa using h
        | cons x xs =>
          simp only [List.cons_append, List.cons.injEq] at h
          exact absurd (h.1 ▸ List.mem_cons_self _ _) hn
    · cases h : cut sep cs with
      | none =>
        simp only [cut, hc, if_false, h]
        constructor
        · intro hh; cases hh
        · rintro ⟨hs, hn⟩
          exfalso
          cases a with
          | nil => simp at hs; exact hc hs.1
          | cons x xs =>
            simp only [List.cons_append, List.cons.injEq] at hs
            have := (ih xs b).2 ⟨hs.2, fun hm => hn (List.mem_cons_of_mem _ hm)⟩
            rw [h] at this
            cases this
      | some p =>
        obtain ⟨a', b'⟩ := p
        have h' := (ih a' b').1 h
        simp only [cut, hc, if_false, h, Option.some.injEq, Prod.mk.injEq]
        constructor
        · rintro ⟨rfl, rfl⟩
          refine ⟨by rw [h'.1]; simp, ?_⟩
          simp [Ne.symm hc, h'.2]
        · rintro ⟨hs, hn⟩
          cases a with
          | nil => simp at hs; exact absurd hs.1 hc
          | cons x xs =>
            simp only [List.cons_append, List.cons.injEq] at hs
            have := (ih xs b).2 ⟨hs.2, fun hm => hn (List.mem_cons_of_mem _ hm)⟩
            rw [h] at this
            simp only [Option.some.injEq, Prod.mk.injEq] at this
            exact ⟨by rw [hs.1, this.1], this.2⟩

theorem splitN_two (s : GoString) (sep : Char) :
    SplitN s sep 2 = match cut sep s with
      | none => [s]
      | some (a, b) => [a, b] := by
  simp only [SplitN]

theorem isEntry_iff_cut (line name text : GoString) :
    IsEntry line name text ↔ cut ' ' (TrimSpace line) = some (name, text) := by
  rw [cut_eq_some, IsEntry]

theorem lineEntry_eq_some (line name text : GoString) :
    lineEntry line = some (name, text) ↔
      IsEntry line name text ∧ (sanitizeQuery text).2 = true := by
  rw [isEntry_iff_cut]
  unfold lineEntry
  cases h : cut ' ' (TrimSpace line) with
  | none => simp
  | some p =>
    obtain ⟨a, b⟩ := p
    by_cases hb : (sanitizeQuery b).2 = true
    · simp only [hb, if_true, Option.some.injEq, Prod.mk.injEq]
      constructor
      · rintro ⟨rfl, rfl⟩; exact ⟨⟨rfl, rfl⟩, hb⟩
      · rintro ⟨⟨rfl, rfl⟩, _⟩; exact ⟨rfl, rfl⟩
    · simp only [hb, Option.some.injEq, Prod.mk.injEq]
      constructor
      · intro hh; simp at hh
      · rintro ⟨⟨rfl, rfl⟩, h2⟩; exact absurd h2 hb

theorem validateConfig_cons (line : GoString) (rest : List GoString) :
    validateConfig (line :: rest) =
      ((decide (TrimSpace line = []) || (lineEntry line).isSome) && validateConfig rest) := by
  simp only [validateConfig, lineEntry, splitN_two]
  by_cases hb : TrimSpace line = []
  · simp [hb]
  · simp only [hb, if_false, decide_False, Bool.false_or]
    cases h : cut ' ' (TrimSpace line) with
    | none => simp
    | some p =>
      obtain ⟨a, b⟩ := p
      by_cases hq : (sanitizeQuery b).2 = true
      · simp [hq]
      · simp [hq]

theorem validateConfig_eq_true (lines : List GoString) :
    validateConfig lines = true ↔
      ∀ line ∈ lines, TrimSpace line ≠ [] → (lineEntry line).isSome = true := by
  induction lines with
  | nil => simp [validateConfig]
  | cons l ls ih =>
    rw [validateConfig_cons, Bool.and_eq_true, ih]
    simp only [Bool.or_eq_true, decide_eq_true_eq, List.mem_cons, forall_eq_or_imp]
    constructor
    · rintro ⟨h1, h2⟩
      exact ⟨fun hne => h1.resolve_left hne, h2⟩
    · rintro ⟨h1, h2⟩
      refine ⟨?_, h2⟩
      by_cases hb : TrimSpace l = []
      · exact Or.inl hb
      · exact Or.inr (h1 hb)

theorem lineEntry_isSome (line : GoString) :
    (lineEntry line).isSome = true ↔
      ∃ name text, IsEntry line name text ∧ (sanitizeQuery text).2 = true := by
  constructor
  · intro h
    obtain ⟨⟨n, t⟩, hp⟩ := Option.isSome_iff_exists.1 h
    exact ⟨n, t, (lineEntry_eq_some line n t).1 hp⟩
  · rintro ⟨n, t, h⟩
    rw [(lineEntry_eq_some line n t).2 h]
    rfl

theorem lineEntry_none_of_no_space (line : GoString) (h : ' ' ∉ TrimSpace line) :
    lineEntry line = none := by
  unfold lineEntry
  rw [(cut_eq_none ' ' (TrimSpace line)).2 h]

theorem validateConfig_blank (pre post : List GoString) (blank : GoString)
    (hb : TrimSpace blank = []) :
    validateConfig (pre ++ blank :: post) = validateConfig (pre ++ post) := by
  induction pre with
  | nil => simp [validateConfig_cons, hb]
  | cons l ls ih => simp only [List.cons_append, validateConfig_cons, ih]

/-- C3: `validateConfig` returns true exactly when every line that is not blank after
trimming contains a space and the text after its first space is accepted by
`sanitizeQuery`; a blank line never changes the result and a trimmed line without a space
makes it false. -/
theorem validateConfig_iff (lines : List GoString) :
    (validateConfig lines = true ↔
      ∀ line ∈ lines, TrimSpace line ≠ [] →
        ' ' ∈ TrimSpace line ∧
        ∃ name text, TrimSpace line = name ++ ' ' :: text ∧ ' ' ∉ name ∧
          (sanitizeQuery text).2 = true) ∧
    (∀ pre post blank, lines = pre ++ blank :: post → TrimSpace blank = [] →
      validateConfig lines = validateConfig (pre ++ post)) ∧
    (∀ line ∈ lines, TrimSpace line ≠ [] → ' ' ∉ TrimSpace line →
      validateConfig lines = false) := by
  refine ⟨?_, ?_, ?_⟩
  · rw [validateConfig_eq_true]
    constructor
    · intro h line hl hne
      obtain ⟨n, t, he, hq⟩ := (lineEntry_isSome line).1 (h line hl hne)
      exact ⟨by rw [he.1]; simp, n, t, he.1, he.2, hq⟩
    · intro h line hl hne
      obtain ⟨_, n, t, h1, h2, hq⟩ := h line hl hne
      exact (lineEntry_isSome line).2 ⟨n, t, ⟨h1, h2⟩, hq⟩
  · rintro pre post blank rfl hb
    exact validateConfig_blank pre post blank hb
  · intro line hl hne hns
    cases hv : validateConfig lines with
    | false => rfl
    | true =>
      have := (validateConfig_eq_true lines).1 hv line hl hne
      rw [lineEntry_none_of_no_space line hns] at this
      cases this

/-! ## Facts about `main` -/

theorem validSSL_iff (s : GoString) :
    (mapLookup validSSLModes s).getD false = true ↔ s ∈ sslModes := by
  simp only [validSSLModes, mapLookup, sslModes, List.mem_cons, List.not_mem_nil, or_false]
  split_ifs with h1 h2 h3 h4
  · exact ⟨fun _ => Or.inl h1.symm, fun _ => rfl⟩
  · exact ⟨fun _ => Or.inr (Or.inl h2.symm), fun _ => rfl⟩
  · exact ⟨fun _ => Or.inr (Or.inr (Or.inl h3.symm)), fun _ => rfl⟩
  · exact ⟨fun _ => Or.inr (Or.inr (Or.inr h4.symm)), fun _ => rfl⟩
  · constructor
    · intro h; cases h
    · rintro (h | h | h | h)
      · exact absurd h.symm h1
      · exact absurd h.symm h2
      · exact absurd h.symm h3
      · exact absurd h.symm h4

theorem validSSL_false_iff (s : GoString) :
    (mapLookup validSSLModes s).getD false = false ↔ s ∉ sslModes := by
  rw [← validSSL_iff]
  simp

theorem runLoop_cons (db : Nat → GoString → Option Rows) (i : Nat) (line : GoString)
    (rest : List (Nat × GoString)) (m : ResultMap) :
    runLoop db ((i, line) :: rest) m =
      match lineEntry line with
      | none => runLoop db rest m
      | some (name, text) =>
        match db i text with
        | none => andThen (Event.query text) (runLoop db rest m)
        | some rows =>
          match rows.columns with
          | none => ([Event.query text], none)
          | some columns =>
            match scanRows columns rows.scans [] with
            | none => ([Event.query text], none)
            | some results =>
              if rows.iterErr then ([Event.query text], none)
              else if rows.closeErr then ([Event.query text], none)
              else andThen (Event.query text) (runLoop db rest (mapAssign m name results)) := by
  simp only [runLoop, lineEntry, splitN_two]
  by_cases hb : TrimSpace line = []
  · simp [hb, cut]
  · simp only [hb, if_false]
    cases h : cut ' ' (TrimSpace line) with
    | none => simp
    | some p =>
      obtain ⟨a, b⟩ := p
      by_cases hq : (sanitizeQuery b).2 = true
      · simp [hq, sanitizeQuery_fst_of_accept b hq]
      · simp [hq]

theorem runLoop_queries_accepted (db : Nat → GoString → Option Rows)
    (items : List (Nat × GoString)) (m : ResultMap) (q : GoString)
    (h : Event.query q ∈ (runLoop db items m).1) : (sanitizeQuery q).2 = true := by
  induction items generalizing m with
  | nil => simp [runLoop] at h
  | cons it rest ih =>
    obtain ⟨i, line⟩ := it
    rw [runLoop_cons] at h
    cases he : lineEntry line with
    | none =>
      rw [he] at h
      exact ih m h
    | some p =>
      obtain ⟨name, text⟩ := p
      have hacc := ((lineEntry_eq_some line name text).1 he).2
      rw [he] at h
      simp only at h
      cases hd : db i text with
      | none =>
        rw [hd] at h
        simp only [andThen, List.mem_cons, Event.query.injEq] at h
        rcases h with rfl | h
        · exact hacc
        · exact ih m h
      | some rows =>
        rw [hd] at h
        simp only at h
        have hq : ∀ x : Option ResultMap,
            Event.query q ∈ (([Event.query text], x) : List Event × Option ResultMap).1 →
            (sanitizeQuery q).2 = true := by
          intro x hx
          simp only [List.mem_singleton, Event.query.injEq] at hx
          rw [hx]; exact hacc
        cases hc : rows.columns with
        | none => rw [hc] at h; exact hq _ h
        | some cols =>
          rw [hc] at h
          simp only at h
          cases hs : scanRows cols rows.scans [] with
          | none => rw [hs] at h; exact hq _ h
          | some results =>
            rw [hs] at h
            simp only at h
            split_ifs at h with h1 h2
            · exact hq _ h
            · exact hq _ h
            · simp only [andThen, List.mem_cons, Event.query.injEq] at h
              rcases h with rfl | h
              · exact hacc
              · exact ih _ h

theorem main_cases (env : Env) :
    (env.ssl ∉ sslModes ∧ main env = ⟨[Event.fatal], 1⟩) ∨
    (env.ssl ∈ sslModes ∧ env.openErr = true ∧
      main env = ⟨[Event.sqlOpen (connStr env), Event.fatal], 1⟩) ∨
    (env.ssl ∈ sslModes ∧ env.openErr = false ∧ env.pingErr = true ∧
      main env = ⟨[Event.sqlOpen (connStr env), Event.ping, Event.fatal], 1⟩) ∨
    (env.ssl ∈ sslModes ∧ env.openErr = false ∧ env.pingErr = false ∧
      env.configFile = none ∧
      main env = ⟨[Event.sqlOpen (connStr env), Event.ping, Event.readFile, Event.fatal], 1⟩) ∨
    (∃ data, env.ssl ∈ sslModes ∧ env.openErr = false ∧ env.pingErr = false ∧
      env.configFile = some data ∧ validateConfig (Split data '\n') = false ∧
      main env = ⟨[Event.sqlOpen (connStr env), Event.ping, Event.readFile, Event.fatal], 1⟩) ∨
    (∃ data events, env.ssl ∈ sslModes ∧ env.openErr = false ∧ env.pingErr = false ∧
      env.configFile = some data ∧ validateConfig (Split data '\n') = true ∧
      runLoop env.db (Split data '\n').enum [] = (events, none) ∧
      main env = ⟨Event.sqlOpen (connStr env) :: Event.ping :: Event.readFile ::
        (events ++ [Event.fatal]), 1⟩) ∨
    (∃ data events m, env.ssl ∈ sslModes ∧ env.openErr = false ∧ env.pingErr = false ∧
      env.configFile = some data ∧ validateConfig (Split data '\n') = true ∧
      runLoop env.db (Split data '\n').enum [] = (events, some m) ∧
      main env = ⟨Event.sqlOpen (connStr env) :: Event.ping :: Event.readFile ::
        (events ++ [Event.report m, Event.dbClose]), 0⟩) := by
  by_cases h1 : env.ssl ∈ sslModes
  swap
  · left
    refine ⟨h1, ?_⟩
    simp [main, (validSSL_false_iff env.ssl).2 h1, logFatal]
  have h1' : ¬ (mapLookup validSSLModes env.ssl).getD false = false := by
    rw [validSSL_false_iff]; exact not_not.2 h1
  right
  by_cases h2 : env.openErr = true
  · left
    refine ⟨h1, h2, ?_⟩
    simp [main, h1', h2, logFatal]
  right
  by_cases h3 : env.pingErr = true
  · left
    refine ⟨h1, by simpa using h2, h3, ?_⟩
    simp [main, h1', h2, h3, logFatal]
  right
  have h2' : env.openErr = false := by simpa using h2
  have h3' : env.pingErr = false := by simpa using h3
  cases h4 : env.configFile with
  | none =>
    left
    refine ⟨h1, h2', h3', rfl, ?_⟩
    simp [main, h1', h2', h3', h4, logFatal]
  | some data =>
    right
    by_cases h5 : validateConfig (Split data '\n') = false
    · left
      refine ⟨data, h1, h2', h3', rfl, h5, ?_⟩
      simp [main, h1', h2', h3', h4, h5, logFatal]
    right
    have h5' : validateConfig (Split data '\n') = true := by simpa using h5
    cases h6 : runLoop env.db (Split data '\n').enum [] with
    | mk events r =>
      cases r with
      | none =>
        left
        refine ⟨data, events, h1, h2', h3', rfl, h5', h6, ?_⟩
        simp [main, h1', h2', h3', h4, h5', h6, logFatal]
      | some m =>
        right
        refine ⟨data, events, m, h1, h2', h3', rfl, h5', h6, ?_⟩
        simp [main, h1', h2', h3', h4, h5', h6, returnFromMain]

/-- C2: in every run, every query text passed to `db.Query` is a text that
`sanitizeQuery` accepts. -/
theorem only_validated_queries_run (env : Env) (q : GoString)
    (h : Event.query q ∈ (main env).trace) : (sanitizeQuery q).2 = true := by
  rcases main_cases env with ⟨_, hm⟩ | ⟨_, _, hm⟩ | ⟨_, _, _, hm⟩ | ⟨_, _, _, _, hm⟩ |
    ⟨_, _, _, _, _, _, hm⟩ | ⟨data, events, _, _, _, _, _, hl, hm⟩ |
    ⟨data, events, m, _, _, _, _, _, hl, hm⟩ <;> rw [hm] at h
  · simp at h
  · simp at h
  · simp at h
  · simp at h
  · simp at h
  · have hq : Event.query q ∈ (runLoop env.db (Split data '\n').enum []).1 := by
      rw [hl]; simpa using h
    exact runLoop_queries_accepted _ _ _ _ hq
  · have hq : Event.query q ∈ (runLoop env.db (Split data '\n').enum []).1 := by
      rw [hl]; simpa using h
    exact runLoop_queries_accepted _ _ _ _ hq

/-- A run in which a query is executed: the default run with a one-line config and a
database that answers every query with one row. -/
theorem only_validated_queries_run_witness :
    (sanitizeQuery "SELECT 1".toList).2 = true :=
  only_validated_queries_run
    { defaultEnv with
      configFile := some "q1 SELECT 1".toList,
      db := fun _ _ => some { columns := some ["a".toList], scans := [some [Value.int64 1]],
                              iterErr := false, closeErr := false } }
    "SELECT 1".toList (by decide)

theorem isEntry_unique (line n1 t1 n2 t2 : GoString) (h1 : IsEntry line n1 t1)
    (h2 : IsEntry line n2 t2) : n1 = n2 ∧ t1 = t2 := by
  rw [isEntry_iff_cut] at h1 h2
  rw [h1] at h2
  simpa using h2

theorem validateConfig_false_of_bad_line (lines : List GoString) (line : GoString)
    (hmem : line ∈ lines) (hne : TrimSpace line ≠ [])
    (hbad : ' ' ∉ TrimSpace line ∨
      ∃ name text, TrimSpace line = name ++ ' ' :: text ∧ ' ' ∉ name ∧
        (sanitizeQuery text).2 = false) :
    validateConfig lines = false := by
  cases hv : validateConfig lines with
  | false => rfl
  | true =>
    exfalso
    have h := (validateConfig_eq_true lines).1 hv line hmem hne
    obtain ⟨n, t, he, hq⟩ := (lineEntry_isSome line).1 h
    rcases hbad with hns | ⟨name, text, h1, h2, h3⟩
    · apply hns
      rw [he.1]; simp
    · obtain ⟨_, rfl⟩ := isEntry_unique line n t name text he ⟨h1, h2⟩
      rw [hq] at h3
      cases h3

/-- C4: when some non-blank line of the config file has no name/query split or has a query
text that `sanitizeQuery` rejects, the run ends in a fatal error, executes no query at all
and reports no result map. -/
theorem invalid_config_aborts (env : Env) (data line : GoString)
    (hfile : env.configFile = some data) (hmem : line ∈ Split data '\n')
    (hne : TrimSpace line ≠ [])
    (hbad : ' ' ∉ TrimSpace line ∨
      ∃ name text, TrimSpace line = name ++ ' ' :: text ∧ ' ' ∉ name ∧
        (sanitizeQuery text).2 = false) :
    (main env).exitCode = 1 ∧ (main env).trace.getLast? = some Event.fatal ∧
    (∀ q, Event.query q ∉ (main env).trace) ∧
    (∀ m, Event.report m ∉ (main env).trace) := by
  have hv := validateConfig_false_of_bad_line _ line hmem hne hbad
  rcases main_cases env with ⟨_, hm⟩ | ⟨_, _, hm⟩ | ⟨_, _, _, hm⟩ | ⟨_, _, _, _, hm⟩ |
    ⟨_, _, _, _, _, _, hm⟩ | ⟨data', _, _, _, _, hf, hv', _, _⟩ |
    ⟨data', _, _, _, _, _, hf, hv', _, _⟩
  · rw [hm]; simp
  · rw [hm]; simp
  · rw [hm]; simp
  · rw [hm]; simp
  · rw [hm]; simp
  · rw [hfile] at hf
    cases hf
    rw [hv] at hv'
    cases hv'
  · rw [hfile] at hf
    cases hf
    rw [hv] at hv'
    cases hv'

/-- The config `q1 SELECT 1`, `bad DELETE FROM t` of the specification: the run aborts and
the valid query of the first line is not executed. -/
theorem invalid_config_aborts_witness :
    (main badLineEnv).exitCode = 1 ∧ (main badLineEnv).trace.getLast? = some Event.fatal ∧
    (∀ q, Event.query q ∉ (main badLineEnv).trace) ∧
    (∀ m, Event.report m ∉ (main badLineEnv).trace) :=
  invalid_config_aborts badLineEnv "q1 SELECT 1\nbad DELETE FROM t".toList
    "bad DELETE FROM t".toList rfl (by decide) (by decide)
    (Or.inr ⟨"bad".toList, "DELETE FROM t".toList, by decide, by decide, by decide⟩)

/-- C6: with a value of `-ssl` outside the four modes the run is the fatal record alone:
no connection is opened or pinged, the config file is not read and no query runs.  With
one of the four modes the first step of the run is `sql.Open`. -/
theorem ssl_mode_gate (env : Env) :
    (env.ssl ∉ sslModes →
      (main env).trace = [Event.fatal] ∧ (main env).exitCode = 1) ∧
    (env.ssl ∈ sslModes →
      ∃ rest, (main env).trace = Event.sqlOpen (connStr env) :: rest) := by
  rcases main_cases env with ⟨h, hm⟩ | ⟨h, _, hm⟩ | ⟨h, _, _, hm⟩ | ⟨h, _, _, _, hm⟩ |
    ⟨_, h, _, _, _, _, hm⟩ | ⟨_, _, h, _, _, _, _, _, hm⟩ |
    ⟨_, _, _, h, _, _, _, _, _, hm⟩ <;> rw [hm] <;>
    exact ⟨fun hn => by first | exact ⟨rfl, rfl⟩ | exact absurd h hn,
      fun hy => by first | exact absurd hy h | exact ⟨_, rfl⟩⟩

/-- The flag `-ssl=foobar` of the specification, and the default `-ssl=disable`. -/
theorem ssl_mode_gate_witness :
    ((main foobarEnv).trace = [Event.fatal] ∧ (main foobarEnv).exitCode = 1) ∧
    (∃ rest, (main defaultEnv).trace = Event.sqlOpen (connStr defaultEnv) :: rest) :=
  ⟨(ssl_mode_gate foobarEnv).1 (by decide), (ssl_mode_gate defaultEnv).2 (by decide)⟩

/-- C8 as written fails: with an unreadable config file, and with a config file that
fails validation, the run has already opened and pinged the database. -/
theorem connect_after_validation_counterexample :
    (defaultEnv.configFile = none ∧
      Event.sqlOpen (connStr defaultEnv) ∈ (main defaultEnv).trace ∧
      Event.ping ∈ (main defaultEnv).trace) ∧
    (validateConfig (Split "q1 SELECT 1\nbad DELETE FROM t".toList '\n') = false ∧
      (main badLineEnv).trace =
        [Event.sqlOpen (connStr badLineEnv), Event.ping, Event.readFile, Event.fatal]) := by
  decide

/-- C8, amended: the config file is read only after the connection was opened and pinged;
a query runs only after the file was read and `validateConfig` succeeded; a run that
reaches the file and finds it unreadable or invalid stops there with a fatal error. -/
theorem connect_before_validation (env : Env) :
    (Event.readFile ∈ (main env).trace →
      ∃ rest, (main env).trace =
        Event.sqlOpen (connStr env) :: Event.ping :: Event.readFile :: rest) ∧
    (∀ q, Event.query q ∈ (main env).trace →
      ∃ data, env.configFile = some data ∧ validateConfig (Split data '\n') = true) ∧
    (Event.readFile ∈ (main env).trace →
      (env.configFile = none ∨
        ∃ data, env.configFile = some data ∧ validateConfig (Split data '\n') = false) →
      (main env).trace =
        [Event.sqlOpen (connStr env), Event.ping, Event.readFile, Event.fatal]) := by
  rcases main_cases env with ⟨_, hm⟩ | ⟨_, _, hm⟩ | ⟨_, _, _, hm⟩ | ⟨_, _, _, hf, hm⟩ |
    ⟨data, _, _, _, hf, hv, hm⟩ | ⟨data, _, _, _, _, hf, hv, _, hm⟩ |
    ⟨data, _, _, _, _, _, hf, hv, _, hm⟩ <;> rw [hm]
  · simp
  · simp
  · simp
  · simp
  · simp
  · refine ⟨fun _ => ⟨_, rfl⟩, fun _ _ => ⟨data, hf, hv⟩, fun _ h => ?_⟩
    rcases h with h | ⟨d, h1, h2⟩
    · rw [hf] at h; cases h
    · rw [hf] at h1; cases h1; rw [hv] at h2; cases h2
  · refine ⟨fun _ => ⟨_, rfl⟩, fun _ _ => ⟨data, hf, hv⟩, fun _ h => ?_⟩
    rcases h with h | ⟨d, h1, h2⟩
    · rw [hf] at h; cases h
    · rw [hf] at h1; cases h1; rw [hv] at h2; cases h2

/-- The default run, whose config file is unreadable: opened, pinged, then stopped. -/
theorem connect_before_validation_witness :
    (main defaultEnv).trace =
      [Event.sqlOpen (connStr defaultEnv), Event.ping, Event.readFile, Event.fatal] :=
  (connect_before_validation defaultEnv).2.2 (by decide) (Or.inl rfl)

/-- C9 fails on the code: `log.Fatal` leaves through `os.Exit`, so the deferred `db.Close`
is not run.  With a failed ping, an unreadable config file or an invalid config file the
connection was opened and the run ends without `db.Close`. -/
theorem fatal_exit_skips_close :
    ((main pingFailEnv).trace =
        [Event.sqlOpen (connStr pingFailEnv), Event.ping, Event.fatal] ∧
      Event.dbClose ∉ (main pingFailEnv).trace) ∧
    (Event.sqlOpen (connStr defaultEnv) ∈ (main defaultEnv).trace ∧
      Event.dbClose ∉ (main defaultEnv).trace) ∧
    (Event.sqlOpen (connStr badLineEnv) ∈ (main badLineEnv).trace ∧
      Event.dbClose ∉ (main badLineEnv).trace) := by
  decide

/-! ## Facts about maps and rows -/

theorem mapLookup_mapAssign {V : Type} (m : GoMap V) (k k' : GoString) (v : V) :
    mapLookup (mapAssign m k v) k' = if k = k' then some v else mapLookup m k' := by
  induction m with
  | nil => simp [mapAssign, mapLookup]
  | cons e rest ih =>
    obtain ⟨a, b⟩ := e
    by_cases h : a = k
    · subst h
      by_cases h' : a = k' <;> simp [mapAssign, mapLookup, h']
    · by_cases h' : a = k'
      · subst h'
        simp [mapAssign, mapLookup, h, Ne.symm h]
      · simp [mapAssign, mapLookup, h, h', ih]

theorem mapKeys_cons {V : Type} (a : GoString) (b : V) (rest : GoMap V) :
    mapKeys ((a, b) :: rest) = a :: mapKeys rest := rfl

theorem mapLookup_cons {V : Type} (a : GoString) (b : V) (rest : GoMap V) (k : GoString) :
    mapLookup ((a, b) :: rest) k = if a = k then some b else mapLookup rest k := rfl

theorem mem_mapKeys_iff {V : Type} (m : GoMap V) (k : GoString) :
    k ∈ mapKeys m ↔ ∃ v, mapLookup m k = some v := by
  induction m with
  | nil =>
    constructor
    · intro h; cases h
    · rintro ⟨v, hv⟩; cases hv
  | cons e rest ih =>
    obtain ⟨a, b⟩ := e
    rw [mapKeys_cons, List.mem_cons, mapLookup_cons]
    by_cases h : a = k
    · rw [if_pos h]
      exact ⟨fun _ => ⟨b, rfl⟩, fun _ => Or.inl h.symm⟩
    · rw [if_neg h, ih]
      constructor
      · rintro (h1 | h1)
        · exact absurd h1.symm h
        · exact h1
      · exact Or.inr

theorem mapKeys_mapAssign_nodup {V : Type} (m : GoMap V) (k : GoString) (v : V)
    (h : (mapKeys m).Nodup) : (mapKeys (mapAssign m k v)).Nodup := by
  induction m with
  | nil => exact List.nodup_singleton k
  | cons e rest ih =>
    obtain ⟨a, b⟩ := e
    rw [mapKeys_cons, List.nodup_cons] at h
    by_cases hk : a = k
    · subst hk
      have : mapAssign ((a, b) :: rest) a v = (a, v) :: rest := by
        simp only [mapAssign, if_true]
      rw [this, mapKeys_cons, List.nodup_cons]
      exact h
    · have hmem : a ∉ mapKeys (mapAssign rest k v) := by
        rw [mem_mapKeys_iff]
        rintro ⟨w, hw⟩
        rw [mapLookup_mapAssign, if_neg (Ne.symm hk)] at hw
        exact h.1 ((mem_mapKeys_iff rest a).2 ⟨w, hw⟩)
      have : mapAssign ((a, b) :: rest) k v = (a, b) :: mapAssign rest k v := by
        simp only [mapAssign, hk, if_false]
      rw [this, mapKeys_cons, List.nodup_cons]
      exact ⟨hmem, ih h.2⟩

theorem mem_mapAssign {V : Type} (m : GoMap V) (k : GoString) (v : V) (e : GoString × V)
    (h : e ∈ mapAssign m k v) : e ∈ m ∨ e = (k, v) := by
  induction m with
  | nil => simpa [mapAssign] using h
  | cons x rest ih =>
    obtain ⟨a, b⟩ := x
    by_cases hk : a = k
    · simp only [mapAssign, hk, if_true, List.mem_cons] at h
      rcases h with h | h
      · exact Or.inr h
      · exact Or.inl (List.mem_cons_of_mem _ h)
    · simp only [mapAssign, hk, if_false, List.mem_cons] at h
      rcases h with h | h
      · exact Or.inl (by rw [h]; exact List.mem_cons_self _ _)
      · rcases ih h with h | h
        · exact Or.inl (List.mem_cons_of_mem _ h)
        · exact Or.inr h

theorem convertValue_not_bytes (v : Value) (b : GoString) : convertValue v ≠ Value.bytes b := by
  cases v <;> simp [convertValue]

theorem convertValue_of_not_bytes (v : Value) (h : ∀ b, v ≠ Value.bytes b) :
    convertValue v = v := by
  cases v <;> simp_all [convertValue]

theorem fillRow_no_bytes (values : List Value) (items : List (Nat × GoString)) (row : Row)
    (h : ∀ e ∈ row, ∀ b, e.2 ≠ Value.bytes b) :
    ∀ e ∈ fillRow values items row, ∀ b, e.2 ≠ Value.bytes b := by
  induction items generalizing row with
  | nil => exact h
  | cons it rest ih =>
    obtain ⟨i, col⟩ := it
    simp only [fillRow]
    apply ih
    intro e he b
    rcases mem_mapAssign _ _ _ _ he with he | he
    · exact h e he b
    · rw [he]
      exact convertValue_not_bytes _ b

theorem fillRow_lookup_other (values : List Value) (items : List (Nat × GoString)) (row : Row)
    (c : GoString) (h : ∀ it ∈ items, it.2 ≠ c) :
    mapLookup (fillRow values items row) c = mapLookup row c := by
  induction items generalizing row with
  | nil => simp [fillRow]
  | cons it rest ih =>
    obtain ⟨i, col⟩ := it
    simp only [fillRow]
    rw [ih _ (fun x hx => h x (List.mem_cons_of_mem _ hx)), mapLookup_mapAssign,
      if_neg (h (i, col) (List.mem_cons_self _ _))]

theorem fillRow_lookup (values : List Value) (cols : List GoString) (k : Nat) (row : Row)
    (p : Nat) (c : GoString) (hp : cols[p]? = some c)
    (hlast : ∀ j, p < j → cols[j]? ≠ some c) :
    mapLookup (fillRow values (cols.enumFrom k) row) c =
      some (convertValue (values.getD (k + p) Value.null)) := by
  induction cols generalizing k row p with
  | nil => simp at hp
  | cons x xs ih =>
    simp only [List.enumFrom_cons, fillRow]
    cases p with
    | zero =>
      simp only [List.getElem?_cons_zero, Option.some.injEq] at hp
      subst hp
      rw [fillRow_lookup_other, mapLookup_mapAssign, if_pos rfl]
      · rfl
      · intro it hit
        obtain ⟨j, y⟩ := it
        intro hy
        have hy' : y = x := hy
        subst hy'
        have hmem := List.mk_mem_enumFrom_iff_le_and_getElem?_sub.1 hit
        exact hlast (j - (k + 1) + 1) (Nat.succ_pos _) (by simpa using hmem.2)
    | succ p' =>
      have := ih (k + 1) (mapAssign row x (convertValue (values.getD k Value.null))) p'
        (by simpa using hp)
        (fun j hj => by
          have := hlast (j + 1) (by omega)
          simpa using this)
      rw [this]
      congr 3
      omega

theorem buildRow_lookup (cols : List GoString) (values : List Value) (p : Nat) (c : GoString)
    (hp : cols[p]? = some c) (hlast : ∀ j, p < j → cols[j]? ≠ some c) :
    mapLookup (buildRow cols values) c = some (convertValue (values.getD p Value.null)) := by
  have := fillRow_lookup values cols 0 [] p c hp hlast
  simpa [buildRow, List.enum] using this

theorem buildRow_no_bytes (cols : List GoString) (values : List Value) :
    ∀ e ∈ buildRow cols values, ∀ b, e.2 ≠ Value.bytes b :=
  fillRow_no_bytes values _ [] (by simp)

theorem scanRows_eq_some (cols : List GoString) (scans : List (Option (List Value)))
    (acc rs : List Row) (h : scanRows cols scans acc = some rs) :
    rs = acc ++ (scans.filterMap id).map (buildRow cols) ∧ ∀ s ∈ scans, s ≠ none := by
  induction scans generalizing acc with
  | nil =>
    simp only [scanRows, Option.some.injEq] at h
    simp [h]
  | cons s rest ih =>
    cases s with
    | none => simp [scanRows] at h
    | some values =>
      simp only [scanRows] at h
      obtain ⟨h1, h2⟩ := ih _ h
      refine ⟨by simp [h1], ?_⟩
      intro s hs
      rcases List.mem_cons.1 hs with rfl | hs
      · simp
      · exact h2 s hs

theorem scanRows_of_clean (cols : List GoString) (scans : List (Option (List Value)))
    (acc : List Row) (h : ∀ s ∈ scans, s ≠ none) :
    scanRows cols scans acc = some (acc ++ (scans.filterMap id).map (buildRow cols)) := by
  induction scans generalizing acc with
  | nil => simp [scanRows]
  | cons s rest ih =>
    cases s with
    | none => exact absurd rfl (h none (List.mem_cons_self _ _))
    | some values =>
      simp only [scanRows]
      rw [ih _ (fun s hs => h s (List.mem_cons_of_mem _ hs))]
      simp

/-! ## The loop on a database without row errors -/

theorem hitAt_zero (db : Nat → GoString → Option Rows) (k : Nat) (l : GoString)
    (ls : List GoString) (n : GoString) (rows : Rows) :
    hitAt db k (l :: ls) 0 n rows ↔
      ∃ text, lineEntry l = some (n, text) ∧ db k text = some rows := by
  unfold hitAt
  constructor
  · rintro ⟨line, text, h1, h2, h3⟩
    simp only [List.getElem?_cons_zero, Option.some.injEq] at h1
    subst h1
    exact ⟨text, h2, h3⟩
  · rintro ⟨text, h2, h3⟩
    exact ⟨l, text, List.getElem?_cons_zero, h2, h3⟩

theorem hitAt_succ (db : Nat → GoString → Option Rows) (k : Nat) (l : GoString)
    (ls : List GoString) (p : Nat) (n : GoString) (rows : Rows) :
    hitAt db k (l :: ls) (p + 1) n rows ↔ hitAt db (k + 1) ls p n rows := by
  unfold hitAt
  have e : k + (p + 1) = k + 1 + p := by omega
  simp only [List.getElem?_cons_succ, e]

theorem lastHit_shift (H : Nat → Rows → Prop) (rs : List Row) :
    LastHit H rs ↔
      LastHit (fun p rows => H (p + 1) rows) rs ∨
      ((∃ rows, H 0 rows ∧ rs = resultSet rows) ∧ NoHit (fun p rows => H (p + 1) rows)) := by
  constructor
  · rintro ⟨p, rows, h1, h2, h3⟩
    cases p with
    | zero =>
      exact Or.inr ⟨⟨rows, h1, h2⟩, fun p' rows' => h3 (p' + 1) rows' (Nat.succ_pos _)⟩
    | succ q =>
      exact Or.inl ⟨q, rows, h1, h2, fun p' rows' hp => h3 (p' + 1) rows' (by omega)⟩
  · rintro (⟨q, rows, h1, h2, h3⟩ | ⟨⟨rows, h1, h2⟩, h3⟩)
    · refine ⟨q + 1, rows, h1, h2, fun p' rows' hp => ?_⟩
      cases p' with
      | zero => omega
      | succ r => exact h3 r rows' (by omega)
    · refine ⟨0, rows, h1, h2, fun p' rows' hp => ?_⟩
      cases p' with
      | zero => omega
      | succ r => exact h3 r rows'

theorem noHit_shift (H : Nat → Rows → Prop) :
    NoHit H ↔ (∀ rows, ¬ H 0 rows) ∧ NoHit (fun p rows => H (p + 1) rows) := by
  constructor
  · intro h
    exact ⟨fun rows => h 0 rows, fun p rows => h (p + 1) rows⟩
  · rintro ⟨h0, h1⟩ p rows
    cases p with
    | zero => exact h0 rows
    | succ q => exact h1 q rows

theorem hitAt_shift_fun (db : Nat → GoString → Option Rows) (k : Nat) (l : GoString)
    (ls : List GoString) (n : GoString) :
    (fun p rows => hitAt db k (l :: ls) (p + 1) n rows) =
      (fun p rows => hitAt db (k + 1) ls p n rows) := by
  funext p rows
  exact propext (hitAt_succ db k l ls p n rows)

theorem combine_lookup {L A A' N N' M0 M1 X NH : Prop}
    (hIH : L ↔ A' ∨ (N' ∧ M1)) (h3 : M1 ↔ X ∨ (NH ∧ M0))
    (hlast : A ↔ A' ∨ (X ∧ N')) (hnone : N ↔ NH ∧ N') :
    L ↔ A ∨ (N ∧ M0) := by
  rw [hIH, h3, hlast, hnone]
  tauto

theorem headStep_none (db : Nat → GoString → Option Rows) (k : Nat) (l : GoString)
    (m0 : ResultMap) (he : lineEntry l = none) : headStep db k l m0 = m0 := by
  simp [headStep, he]

theorem headStep_fail (db : Nat → GoString → Option Rows) (k : Nat) (l : GoString)
    (m0 : ResultMap) (name text : GoString) (he : lineEntry l = some (name, text))
    (hd : db k text = none) : headStep db k l m0 = m0 := by
  simp [headStep, he, hd]

theorem headStep_ok (db : Nat → GoString → Option Rows) (k : Nat) (l : GoString)
    (m0 : ResultMap) (name text : GoString) (rows : Rows)
    (he : lineEntry l = some (name, text)) (hd : db k text = some rows) :
    headStep db k l m0 = mapAssign m0 name (resultSet rows) := by
  simp [headStep, he, hd]

theorem runLoop_clean_cons (db : Nat → GoString → Option Rows) (hclean : NoRowErrors db)
    (k : Nat) (l : GoString) (rest : List (Nat × GoString)) (m0 : ResultMap) :
    ∃ pre : List Event, runLoop db ((k, l) :: rest) m0 =
      (pre ++ (runLoop db rest (headStep db k l m0)).1,
        (runLoop db rest (headStep db k l m0)).2) := by
  rw [runLoop_cons]
  cases he : lineEntry l with
  | none =>
    rw [headStep_none db k l m0 he]
    exact ⟨[], rfl⟩
  | some e =>
    obtain ⟨name, text⟩ := e
    cases hd : db k text with
    | none =>
      rw [headStep_fail db k l m0 name text he hd]
      refine ⟨[Event.query text], ?_⟩
      simp [hd, andThen]
    | some rows =>
      rw [headStep_ok db k l m0 name text rows he hd]
      obtain ⟨h1, h2, h3, h4⟩ := hclean k text rows hd
      cases hc : rows.columns with
      | none => exact absurd hc h1
      | some cols =>
        refine ⟨[Event.query text], ?_⟩
        simp [hd, hc, scanRows_of_clean cols rows.scans [] h2, h3, h4, resultSet, andThen]

theorem headStep_lookup (db : Nat → GoString → Option Rows) (k : Nat) (l : GoString)
    (ls : List GoString) (m0 : ResultMap) (n : GoString) (rs : List Row) :
    mapLookup (headStep db k l m0) n = some rs ↔
      (∃ rows, hitAt db k (l :: ls) 0 n rows ∧ rs = resultSet rows) ∨
      ((∀ rows, ¬ hitAt db k (l :: ls) 0 n rows) ∧ mapLookup m0 n = some rs) := by
  simp only [hitAt_zero]
  cases he : lineEntry l with
  | none =>
    rw [headStep_none db k l m0 he]
    constructor
    · intro h
      refine Or.inr ⟨?_, h⟩
      rintro rows ⟨t, ht, _⟩
      cases ht
    · rintro (⟨rows, ⟨t, ht, _⟩, _⟩ | ⟨_, h⟩)
      · cases ht
      · exact h
  | some e =>
    obtain ⟨name, text⟩ := e
    cases hd : db k text with
    | none =>
      rw [headStep_fail db k l m0 name text he hd]
      constructor
      · intro h
        refine Or.inr ⟨?_, h⟩
        rintro rows ⟨t, ht, h2⟩
        cases ht
        rw [hd] at h2
        cases h2
      · rintro (⟨rows, ⟨t, ht, h2⟩, _⟩ | ⟨_, h⟩)
        · cases ht
          rw [hd] at h2
          cases h2
        · exact h
    | some rows0 =>
      rw [headStep_ok db k l m0 name text rows0 he hd, mapLookup_mapAssign]
      by_cases hn : name = n
      · subst hn
        rw [if_pos rfl]
        constructor
        · intro h
          exact Or.inl ⟨rows0, ⟨text, rfl, hd⟩, (Option.some.inj h).symm⟩
        · rintro (⟨rows, ⟨t, ht, h2⟩, h3⟩ | ⟨h, _⟩)
          · cases ht
            rw [hd] at h2
            cases h2
            rw [h3]
          · exact absurd ⟨text, rfl, hd⟩ (h rows0)
      · rw [if_neg hn]
        constructor
        · intro h
          refine Or.inr ⟨?_, h⟩
          rintro rows ⟨t, ht, _⟩
          cases ht
          exact hn rfl
        · rintro (⟨rows, ⟨t, ht, _⟩, _⟩ | ⟨_, h⟩)
          · cases ht
            exact absurd rfl hn
          · exact h

theorem headStep_nodup (db : Nat → GoString → Option Rows) (k : Nat) (l : GoString)
    (m0 : ResultMap) (h : (mapKeys m0).Nodup) : (mapKeys (headStep db k l m0)).Nodup := by
  cases he : lineEntry l with
  | none =>
    rw [headStep_none db k l m0 he]
    exact h
  | some e =>
    obtain ⟨name, text⟩ := e
    cases hd : db k text with
    | none =>
      rw [headStep_fail db k l m0 name text he hd]
      exact h
    | some rows =>
      rw [headStep_ok db k l m0 name text rows he hd]
      exact mapKeys_mapAssign_nodup m0 name _ h

theorem headStep_keys (db : Nat → GoString → Option Rows) (k : Nat) (l : GoString)
    (ls : List GoString) (m0 : ResultMap) (n : GoString) :
    n ∈ mapKeys (headStep db k l m0) ↔
      (∃ rows, hitAt db k (l :: ls) 0 n rows) ∨ n ∈ mapKeys m0 := by
  rw [mem_mapKeys_iff, mem_mapKeys_iff]
  constructor
  · rintro ⟨rs, h⟩
    rcases (headStep_lookup db k l ls m0 n rs).1 h with ⟨rows, h1, _⟩ | ⟨_, h2⟩
    · exact Or.inl ⟨rows, h1⟩
    · exact Or.inr ⟨rs, h2⟩
  · intro h
    by_cases hex : ∃ rows, hitAt db k (l :: ls) 0 n rows
    · obtain ⟨rows, h1⟩ := hex
      exact ⟨resultSet rows, (headStep_lookup db k l ls m0 n _).2 (Or.inl ⟨rows, h1, rfl⟩)⟩
    · rcases h with h | ⟨rs, h⟩
      · exact absurd h hex
      · exact ⟨rs, (headStep_lookup db k l ls m0 n rs).2
          (Or.inr ⟨fun rows hr => hex ⟨rows, hr⟩, h⟩)⟩

theorem runLoop_clean (db : Nat → GoString → Option Rows) (hclean : NoRowErrors db)
    (lines : List GoString) (k : Nat) (m0 : ResultMap) :
    ∃ events m, runLoop db (lines.enumFrom k) m0 = (events, some m) ∧
      (∀ n rs, mapLookup m n = some rs ↔
        LastHit (fun p rows => hitAt db k lines p n rows) rs ∨
        (NoHit (fun p rows => hitAt db k lines p n rows) ∧ mapLookup m0 n = some rs)) ∧
      (∀ n, n ∈ mapKeys m ↔ (∃ p rows, hitAt db k lines p n rows) ∨ n ∈ mapKeys m0) ∧
      ((mapKeys m0).Nodup → (mapKeys m).Nodup) := by
  induction lines generalizing k m0 with
  | nil =>
    refine ⟨[], m0, rfl, fun n rs => ?_, fun n => ?_, id⟩
    · constructor
      · intro h
        refine Or.inr ⟨?_, h⟩
        rintro p rows ⟨line, text, h1, _⟩
        simp at h1
      · rintro (⟨p, rows, ⟨line, text, h1, _⟩, _⟩ | ⟨_, h⟩)
        · simp at h1
        · exact h
    · constructor
      · exact Or.inr
      · rintro (⟨p, rows, line, text, h1, _⟩ | h)
        · simp at h1
        · exact h
  | cons l ls ih =>
    obtain ⟨pre, hpre⟩ := runLoop_clean_cons db hclean k l (ls.enumFrom (k + 1)) m0
    obtain ⟨events, m, hrun, hlook, hkeys, hnodup⟩ := ih (k + 1) (headStep db k l m0)
    refine ⟨pre ++ events, m, ?_, fun n rs => ?_, fun n => ?_, fun h => ?_⟩
    · rw [List.enumFrom_cons, hpre, hrun]
    · refine combine_lookup (hlook n rs) (headStep_lookup db k l ls m0 n rs) ?_ ?_
      · rw [lastHit_shift, hitAt_shift_fun]
      · rw [noHit_shift, hitAt_shift_fun]
    · rw [hkeys n, headStep_keys db k l ls m0 n]
      constructor
      · rintro (⟨p, rows, h⟩ | ⟨rows, h⟩ | h)
        · exact Or.inl ⟨p + 1, rows, (hitAt_succ db k l ls p n rows).2 h⟩
        · exact Or.inl ⟨0, rows, h⟩
        · exact Or.inr h
      · rintro (⟨p, rows, h⟩ | h)
        · cases p with
          | zero => exact Or.inr (Or.inl ⟨rows, h⟩)
          | succ q => exact Or.inl ⟨q, rows, (hitAt_succ db k l ls q n rows).1 h⟩
        · exact Or.inr (Or.inr h)
    · exact hnodup (headStep_nodup db k l m0 h)

/-! ## The reported result map -/

theorem runLoop_events (db : Nat → GoString → Option Rows)
    (items : List (Nat × GoString)) (m : ResultMap) (e : Event)
    (h : e ∈ (runLoop db items m).1) : ∃ q, e = Event.query q := by
  induction items generalizing m with
  | nil => simp [runLoop] at h
  | cons it rest ih =>
    obtain ⟨i, line⟩ := it
    rw [runLoop_cons] at h
    cases he : lineEntry line with
    | none =>
      rw [he] at h
      exact ih m h
    | some p =>
      obtain ⟨name, text⟩ := p
      rw [he] at h
      simp only at h
      have hq : ∀ x : Option ResultMap,
          e ∈ (([Event.query text], x) : List Event × Option ResultMap).1 →
          ∃ q, e = Event.query q := by
        intro x hx
        exact ⟨text, List.mem_singleton.1 hx⟩
      cases hd : db i text with
      | none =>
        rw [hd] at h
        simp only [andThen, List.mem_cons] at h
        rcases h with h | h
        · exact ⟨text, h⟩
        · exact ih m h
      | some rows =>
        rw [hd] at h
        simp only at h
        cases hc : rows.columns with
        | none => rw [hc] at h; exact hq _ h
        | some cols =>
          rw [hc] at h
          simp only at h
          cases hs : scanRows cols rows.scans [] with
          | none => rw [hs] at h; exact hq _ h
          | some results =>
            rw [hs] at h
            simp only at h
            split_ifs at h with h1 h2
            · exact hq _ h
            · exact hq _ h
            · simp only [andThen, List.mem_cons] at h
              rcases h with h | h
              · exact ⟨text, h⟩
              · exact ih _ h

theorem runLoop_provenance (db : Nat → GoString → Option Rows)
    (items : List (Nat × GoString)) (m0 m : ResultMap) (events : List Event)
    (hrun : runLoop db items m0 = (events, some m)) (n : GoString) (rs : List Row)
    (hn : mapLookup m n = some rs) :
    mapLookup m0 n = some rs ∨
    ∃ i text rows cols, Event.query text ∈ events ∧ db i text = some rows ∧
      rows.columns = some cols ∧ rs = (rows.scans.filterMap id).map (buildRow cols) := by
  induction items generalizing m0 events with
  | nil =>
    simp only [runLoop, Prod.mk.injEq, Option.some.injEq] at hrun
    rw [hrun.2]
    exact Or.inl hn
  | cons it rest ih =>
    obtain ⟨i, line⟩ := it
    rw [runLoop_cons] at hrun
    cases he : lineEntry line with
    | none =>
      rw [he] at hrun
      exact ih m0 events hrun
    | some p =>
      obtain ⟨name, text⟩ := p
      rw [he] at hrun
      simp only at hrun
      cases hd : db i text with
      | none =>
        rw [hd] at hrun
        simp only [andThen, Prod.mk.injEq] at hrun
        rcases ih m0 _ (Prod.ext rfl hrun.2) with h | ⟨j, t, rows, cols, h1, h2⟩
        · exact Or.inl h
        · refine Or.inr ⟨j, t, rows, cols, ?_, h2⟩
          rw [← hrun.1]
          exact List.mem_cons_of_mem _ h1
      | some rows =>
        rw [hd] at hrun
        simp only at hrun
        cases hc : rows.columns with
        | none => rw [hc] at hrun; simp at hrun
        | some cols =>
          rw [hc] at hrun
          simp only at hrun
          cases hs : scanRows cols rows.scans [] with
          | none => rw [hs] at hrun; simp at hrun
          | some results =>
            rw [hs] at hrun
            simp only at hrun
            split_ifs at hrun with h1 h2
            · simp at hrun
            · simp at hrun
            · simp only [andThen, Prod.mk.injEq] at hrun
              rcases ih _ _ (Prod.ext rfl hrun.2) with h | ⟨j, t, rows', cols', h3, h4⟩
              · rw [mapLookup_mapAssign] at h
                by_cases hname : name = n
                · rw [if_pos hname] at h
                  refine Or.inr ⟨i, text, rows, cols, ?_, hd, hc, ?_⟩
                  · rw [← hrun.1]
                    exact List.mem_cons_self _ _
                  · have := (scanRows_eq_some cols rows.scans [] results hs).1
                    rw [← Option.some.inj h, this]
                    rfl
                · rw [if_neg hname] at h
                  exact Or.inl h
              · refine Or.inr ⟨j, t, rows', cols', ?_, h4⟩
                rw [← hrun.1]
                exact List.mem_cons_of_mem _ h3

theorem hitAt_iff_succeeds (db : Nat → GoString → Option Rows) (lines : List GoString)
    (hvalid : validateConfig lines = true) (p : Nat) (n : GoString) (rows : Rows) :
    hitAt db 0 lines p n rows ↔ Succeeds db lines p n rows := by
  unfold hitAt Succeeds
  simp only [Nat.zero_add]
  constructor
  · rintro ⟨line, text, h1, h2, h3⟩
    exact ⟨line, text, h1, ((lineEntry_eq_some line n text).1 h2).1, h3⟩
  · rintro ⟨line, text, h1, h2, h3⟩
    refine ⟨line, text, h1, ?_, h3⟩
    have hmem : line ∈ lines := List.getElem?_mem h1
    have hne : TrimSpace line ≠ [] := by
      rw [h2.1]
      simp
    obtain ⟨n', t', he, hq⟩ :=
      (lineEntry_isSome line).1 ((validateConfig_eq_true lines).1 hvalid line hmem hne)
    obtain ⟨rfl, rfl⟩ := isEntry_unique line n text n' t' h2 he
    exact (lineEntry_eq_some line n text).2 ⟨he, hq⟩

/-- C5: with a config file that `validateConfig` accepts and a database without column,
scan, iteration or close errors, a run that gets past the start-up reaches the reporter.
The reported map holds a name exactly when a line with that name has a query that
succeeds, with the rows of the last such line; a failing query adds nothing and does not
stop the run.  No name has two entries, and when every query succeeds the names of the
map are the names of the lines. -/
theorem result_map_last_write_wins (env : Env) (data : GoString)
    (hssl : env.ssl ∈ sslModes) (hopen : env.openErr = false) (hping : env.pingErr = false)
    (hfile : env.configFile = some data)
    (hvalid : validateConfig (Split data '\n') = true)
    (hclean : NoRowErrors env.db) :
    ∃ m, (main env).exitCode = 0 ∧ Event.fatal ∉ (main env).trace ∧
      (∀ m', Event.report m' ∈ (main env).trace ↔ m' = m) ∧
      (∀ n rs, mapLookup m n = some rs ↔
        ∃ i rows, Succeeds env.db (Split data '\n') i n rows ∧ rs = resultSet rows ∧
          ∀ j rows', i < j → ¬ Succeeds env.db (Split data '\n') j n rows') ∧
      (mapKeys m).Nodup ∧
      ((∀ i q, (env.db i q).isSome = true) →
        ∀ n, n ∈ mapKeys m ↔ ∃ line ∈ Split data '\n', ∃ text, IsEntry line n text) := by
  obtain ⟨events, m, hrun, hlook, hkeys, hnodup⟩ :=
    runLoop_clean env.db hclean (Split data '\n') 0 []
  have hev : ∀ e ∈ events, ∃ q, e = Event.query q := by
    intro e he
    apply runLoop_events env.db ((Split data '\n').enumFrom 0) [] e
    rw [hrun]
    exact he
  have hmain : main env = ⟨Event.sqlOpen (connStr env) :: Event.ping :: Event.readFile ::
      (events ++ [Event.report m, Event.dbClose]), 0⟩ := by
    rcases main_cases env with ⟨h, _⟩ | ⟨_, h, _⟩ | ⟨_, _, h, _⟩ | ⟨_, _, _, h, _⟩ |
      ⟨d, _, _, _, h, hv, _⟩ | ⟨d, ev, _, _, _, h, _, hl, _⟩ |
      ⟨d, ev, m', _, _, _, h, _, hl, hm⟩
    · exact absurd hssl h
    · rw [hopen] at h; cases h
    · rw [hping] at h; cases h
    · rw [hfile] at h; cases h
    · rw [hfile] at h; cases h; rw [hvalid] at hv; cases hv
    · rw [hfile] at h; cases h
      rw [List.enum, hrun] at hl
      cases hl
    · rw [hfile] at h; cases h
      rw [List.enum, hrun] at hl
      cases hl
      exact hm
  refine ⟨m, ?_, ?_, ?_, ?_, hnodup (List.nodup_nil), ?_⟩
  · rw [hmain]
  · rw [hmain]
    intro h
    simp only [List.mem_cons, List.mem_append, reduceCtorEq, false_or, or_false,
      List.not_mem_nil] at h
    obtain ⟨q, hq⟩ := hev _ h
    cases hq
  · intro m'
    rw [hmain]
    constructor
    · intro h
      simp only [List.mem_cons, List.mem_append, reduceCtorEq, false_or, or_false,
        List.not_mem_nil, Event.report.injEq] at h
      rcases h with h | h
      · obtain ⟨q, hq⟩ := hev _ h
        cases hq
      · exact h
    · rintro rfl
      simp
  · intro n rs
    rw [hlook n rs]
    constructor
    · rintro (⟨p, rows, h1, h2, h3⟩ | ⟨_, h⟩)
      · exact ⟨p, rows, (hitAt_iff_succeeds _ _ hvalid p n rows).1 h1, h2,
          fun j rows' hj hs => h3 j rows' hj ((hitAt_iff_succeeds _ _ hvalid j n rows').2 hs)⟩
      · cases h
    · rintro ⟨p, rows, h1, h2, h3⟩
      exact Or.inl ⟨p, rows, (hitAt_iff_succeeds _ _ hvalid p n rows).2 h1, h2,
        fun j rows' hj hs => h3 j rows' hj ((hitAt_iff_succeeds _ _ hvalid j n rows').1 hs)⟩
  · intro hall n
    rw [hkeys n]
    constructor
    · rintro (⟨p, rows, h⟩ | h)
      · obtain ⟨line, text, h1, h2, _⟩ := (hitAt_iff_succeeds _ _ hvalid p n rows).1 h
        exact ⟨line, List.getElem?_mem h1, text, h2⟩
      · cases h
    · rintro ⟨line, hmem, text, he⟩
      obtain ⟨p, hp⟩ := List.getElem?_of_mem hmem
      obtain ⟨rows, hrows⟩ := Option.isSome_iff_exists.1 (hall p text)
      exact Or.inl ⟨p, rows,
        (hitAt_iff_succeeds _ _ hvalid p n rows).2 ⟨line, text, hp, he, hrows⟩⟩

theorem noRowErrors_q2FailEnv : NoRowErrors q2FailEnv.db := by
  intro i q rows h
  have h' : (if i = 1 then none else some oneRow) = some rows := h
  by_cases hi : i = 1
  · rw [if_pos hi] at h'
    cases h'
  · rw [if_neg hi] at h'
    cases h'
    decide

/-- The config `q1 SELECT 1`, `q2 SELECT * FROM nonexistent_table` of the specification,
where the second query fails: the run reports a map with `q1` alone. -/
theorem result_map_last_write_wins_witness :
    NoRowErrors q2FailEnv.db ∧
    (main q2FailEnv).trace =
      [Event.sqlOpen (connStr q2FailEnv), Event.ping, Event.readFile,
       Event.query "SELECT 1".toList, Event.query "SELECT * FROM nonexistent_table".toList,
       Event.report [("q1".toList, [[("?column?".toList, Value.int64 1)]])],
       Event.dbClose] ∧
    ∃ m, (main q2FailEnv).exitCode = 0 ∧ Event.fatal ∉ (main q2FailEnv).trace ∧
      (∀ m', Event.report m' ∈ (main q2FailEnv).trace ↔ m' = m) ∧
      (∀ n rs, mapLookup m n = some rs ↔
        ∃ i rows, Succeeds q2FailEnv.db
            (Split "q1 SELECT 1\nq2 SELECT * FROM nonexistent_table".toList '\n') i n rows ∧
          rs = resultSet rows ∧
          ∀ j rows', i < j → ¬ Succeeds q2FailEnv.db
            (Split "q1 SELECT 1\nq2 SELECT * FROM nonexistent_table".toList '\n') j n rows') ∧
      (mapKeys m).Nodup ∧
      ((∀ i q, (q2FailEnv.db i q).isSome = true) →
        ∀ n, n ∈ mapKeys m ↔
          ∃ line ∈ Split "q1 SELECT 1\nq2 SELECT * FROM nonexistent_table".toList '\n',
            ∃ text, IsEntry line n text) :=
  ⟨noRowErrors_q2FailEnv, by decide,
    result_map_last_write_wins q2FailEnv
      "q1 SELECT 1\nq2 SELECT * FROM nonexistent_table".toList
      (by decide) rfl rfl rfl (by decide) noRowErrors_q2FailEnv⟩

/-- C7: every row of the reported result map is the row map built from the values scanned
for one row of a query that was executed successfully.  This row map gives each column
name the value scanned for that column (for a repeated name, the last such column), with a
`[]byte` value replaced by its `string` conversion and every other value, null included,
unchanged; no value of a row map is a `[]byte`. -/
theorem rows_convert_bytes (env : Env) (m : ResultMap) (n : GoString) (rs : List Row)
    (hrep : Event.report m ∈ (main env).trace) (hn : mapLookup m n = some rs) :
    (∃ i text rows cols, Event.query text ∈ (main env).trace ∧
      env.db i text = some rows ∧ rows.columns = some cols ∧
      rs = (rows.scans.filterMap id).map (buildRow cols) ∧
      ∀ values,
        (∀ p c, cols[p]? = some c → (∀ j, p < j → cols[j]? ≠ some c) →
          mapLookup (buildRow cols values) c =
            some (convertValue (values.getD p Value.null))) ∧
        (∀ e ∈ buildRow cols values, ∀ b, e.2 ≠ Value.bytes b)) ∧
    (∀ row ∈ rs, ∀ e ∈ row, ∀ b, e.2 ≠ Value.bytes b) ∧
    (∀ b, convertValue (Value.bytes b) = Value.str b) ∧
    (∀ v, (∀ b, v ≠ Value.bytes b) → convertValue v = v) := by
  have key : ∃ i text rows cols, Event.query text ∈ (main env).trace ∧
      env.db i text = some rows ∧ rows.columns = some cols ∧
      rs = (rows.scans.filterMap id).map (buildRow cols) := by
    rcases main_cases env with ⟨_, hm⟩ | ⟨_, _, hm⟩ | ⟨_, _, _, hm⟩ | ⟨_, _, _, _, hm⟩ |
      ⟨_, _, _, _, _, _, hm⟩ | ⟨data, events, _, _, _, _, _, hl, hm⟩ |
      ⟨data, events, m', _, _, _, _, _, hl, hm⟩
    · rw [hm] at hrep; simp at hrep
    · rw [hm] at hrep; simp at hrep
    · rw [hm] at hrep; simp at hrep
    · rw [hm] at hrep; simp at hrep
    · rw [hm] at hrep; simp at hrep
    · exfalso
      rw [hm] at hrep
      simp only [List.mem_cons, List.mem_append, reduceCtorEq, false_or, or_false,
        List.not_mem_nil] at hrep
      have : Event.report m ∈ (runLoop env.db (Split data '\n').enum []).1 := by
        rw [hl]; exact hrep
      obtain ⟨q, hq⟩ := runLoop_events _ _ _ _ this
      cases hq
    · rw [hm] at hrep
      simp only [List.mem_cons, List.mem_append, reduceCtorEq, false_or, or_false,
        List.not_mem_nil, Event.report.injEq] at hrep
      have hmm : m = m' := by
        rcases hrep with h | h
        · have : Event.report m ∈ (runLoop env.db (Split data '\n').enum []).1 := by
            rw [hl]; exact h
          obtain ⟨q, hq⟩ := runLoop_events _ _ _ _ this
          cases hq
        · exact h
      subst hmm
      rcases runLoop_provenance env.db _ [] m events hl n rs hn with h |
        ⟨i, text, rows, cols, h1, h2, h3, h4⟩
      · cases h
      · refine ⟨i, text, rows, cols, ?_, h2, h3, h4⟩
        rw [hm]
        simp [h1]
  obtain ⟨i, text, rows, cols, h1, h2, h3, h4⟩ := key
  refine ⟨⟨i, text, rows, cols, h1, h2, h3, h4, fun values =>
    ⟨fun p c hp hlast => buildRow_lookup cols values p c hp hlast,
      buildRow_no_bytes cols values⟩⟩, ?_, fun b => rfl, convertValue_of_not_bytes⟩
  intro row hrow
  rw [h4] at hrow
  obtain ⟨values, _, rfl⟩ := List.mem_map.1 hrow
  exact buildRow_no_bytes cols values

/-- A run whose only query returns a `[]byte`, a null and an integer: the reported row
holds the text of the bytes, the null and the integer. -/
theorem rows_convert_bytes_witness :
    (main bytesEnv).trace =
      [Event.sqlOpen (connStr bytesEnv), Event.ping, Event.readFile,
       Event.query "SELECT name, note, n FROM t".toList,
       Event.report [("q1".toList,
         [[("name".toList, Value.str "abc".toList), ("note".toList, Value.null),
           ("n".toList, Value.int64 7)]])],
       Event.dbClose] ∧
    ∀ row ∈ [[("name".toList, Value.str "abc".toList), ("note".toList, Value.null),
              ("n".toList, Value.int64 7)]],
      ∀ e ∈ row, ∀ b, e.2 ≠ Value.bytes b :=
  ⟨by decide,
    (rows_convert_bytes bytesEnv
      [("q1".toList,
         [[("name".toList, Value.str "abc".toList), ("note".toList, Value.null),
           ("n".toList, Value.int64 7)]])]
      "q1".toList _ (by decide) (by decide)).2.1⟩

end DbMetricsExporter
